import Mathlib

/-!
Verification of the BSON <-> JSON converter core.

The repository under verification is a web front end whose conversion
functions (`convertBSONToJSON`, `convertJSONToBSON`, `processFile`) delegate
the actual codec work to an external BSON library and to the platform JSON
parser/printer; only the thin wrappers live in the repository sources.  The
codec itself (BSON Reader, BSON Writer, JSON Bridge) is therefore modelled
from the specification: every definition below whose doc comment starts with
"Modelled from the spec:" embeds the component as the specification
describes it, and the claims are settled against that model.  `processFile`
and its companions are embedded directly from the repository source.

Modelling conventions, fixed once for the whole development:
* bytes are `Nat`s; buffers are `List Nat`.  Strings travel through the
  binary layer at character granularity (one unit per character, carrying
  the character code), standing in for UTF-8 byte sequences.
* the spec's IEEE-754 `Double` is carried as its decimal surface form
  (sign, integer digits, fraction digits); bit-level binary64 semantics are
  floating point and are not representable in this shallow embedding.
* `Decimal128` is carried as its 16 raw bytes, exactly as the spec demands;
  its JSON rendering uses an invertible hex string in place of the
  IEEE-754-2008 decimal significand rendering, which is likewise not
  representable here.
-/

namespace BsonCodec

/-- Error taxonomy of the codec, from the spec's error handling design:
`MalformedBson` for structural corruption of binary input, `InvalidJson` for
JSON syntax errors, `UnsupportedValue` as the defensive writer error. -/
inductive ConvError where
  | malformedBson
  | invalidJson
  | unsupportedValue
  deriving DecidableEq, Repr

/-- Byte buffers of the binary layer. -/
abbrev Bytes := List Nat

/-! ## Little-endian fixed-width integers -/

/-- Modelled from the spec: the 4-byte little-endian length field of the BSON
wire format.  The three low units are reduced modulo 256; the top unit is
left unreduced so that the encoding is invertible for every `Nat` without a
separate document-size cap in the model (real documents are capped at 10 MiB
by the caller, far below 2^32, where the two encodings agree). -/
def le32 (n : Nat) : Bytes :=
  [n % 256, n / 256 % 256, n / 65536 % 256, n / 16777216]

/-- Value of four little-endian units. -/
def le32val (b0 b1 b2 b3 : Nat) : Nat :=
  b0 + 256 * b1 + 65536 * b2 + 16777216 * b3

theorem le32val_le32 (n : Nat) :
    le32val (n % 256) (n / 256 % 256) (n / 65536 % 256) (n / 16777216) = n := by
  unfold le32val
  omega

/-- Modelled from the spec: 8-byte little-endian encoding of a 64-bit
quantity (Int64 and DateTime payloads). -/
def le64 (n : Nat) : Bytes :=
  [n % 256, n / 256 % 256, n / 65536 % 256, n / 16777216 % 256,
   n / 4294967296 % 256, n / 1099511627776 % 256,
   n / 281474976710656 % 256, n / 72057594037927936 % 256]

/-- Value of eight little-endian units. -/
def le64val (b0 b1 b2 b3 b4 b5 b6 b7 : Nat) : Nat :=
  b0 + 256 * b1 + 65536 * b2 + 16777216 * b3 + 4294967296 * b4 +
    1099511627776 * b5 + 281474976710656 * b6 + 72057594037927936 * b7

theorem le64val_le64 (n : Nat) (h : n < 18446744073709551616) :
    le64val (n % 256) (n / 256 % 256) (n / 65536 % 256) (n / 16777216 % 256)
      (n / 4294967296 % 256) (n / 1099511627776 % 256)
      (n / 281474976710656 % 256) (n / 72057594037927936 % 256) = n := by
  unfold le64val
  omega

/-- Two's-complement image of a signed 64-bit integer. -/
def intToU64 (v : Int) : Nat := (v % 18446744073709551616).toNat

/-- Signed interpretation of a 64-bit two's-complement quantity. -/
def u64ToInt (n : Nat) : Int :=
  if n < 9223372036854775808 then (n : Int) else (n : Int) - 18446744073709551616

theorem u64ToInt_intToU64 (v : Int)
    (h0 : -9223372036854775808 ≤ v) (h1 : v < 9223372036854775808) :
    u64ToInt (intToU64 v) = v := by
  unfold u64ToInt intToU64
  split <;> omega

theorem intToU64_lt (v : Int) : intToU64 v < 18446744073709551616 := by
  unfold intToU64
  omega

/-! ## Exact splitting of buffers -/

/-- Take exactly `n` units off the front of a buffer, or fail. -/
def takeE : Nat → Bytes → Option (Bytes × Bytes)
  | 0, l => some ([], l)
  | _ + 1, [] => none
  | n + 1, b :: l =>
    match takeE n l with
    | some (a, r) => some (b :: a, r)
    | none => none

theorem takeE_append (xs rest : Bytes) : takeE xs.length (xs ++ rest) = some (xs, rest) := by
  induction xs with
  | nil => rfl
  | cons b l ih => simp [takeE, ih]

/-! ## Decimal digits -/

/-- Value of a big-endian list of decimal digits. -/
def digitsVal (ds : List Nat) : Nat := ds.foldl (fun a d => 10 * a + d) 0

theorem digitsVal_foldl (ds : List Nat) (a : Nat) :
    ds.foldl (fun a d => 10 * a + d) a = a * 10 ^ ds.length + digitsVal ds := by
  induction ds generalizing a with
  | nil => simp [digitsVal]
  | cons d l ih =>
    simp only [List.foldl_cons, digitsVal] at *
    rw [ih (10 * a + d), ih (10 * 0 + d)]
    simp [pow_succ]
    ring

theorem digitsVal_append_one (ds : List Nat) (d : Nat) :
    digitsVal (ds ++ [d]) = 10 * digitsVal ds + d := by
  unfold digitsVal
  rw [List.foldl_append]
  simp

/-- Big-endian decimal digits of a natural number; the first argument is
recursion fuel, always instantiated with the number itself. -/
def natDigitsAux : Nat → Nat → List Nat
  | 0, _ => []
  | _ + 1, 0 => []
  | fuel + 1, n + 1 => natDigitsAux fuel ((n + 1) / 10) ++ [(n + 1) % 10]

/-- Big-endian decimal digits of a natural number ("0" for zero). -/
def natDigits (n : Nat) : List Nat :=
  if n = 0 then [0] else natDigitsAux n n

theorem digitsVal_natDigitsAux : ∀ fuel n, n ≤ fuel →
    digitsVal (natDigitsAux fuel n) = n := by
  intro fuel
  induction fuel with
  | zero => intro n h; interval_cases n; rfl
  | succ f ih =>
    intro n h
    match n with
    | 0 => rfl
    | m + 1 =>
      rw [natDigitsAux, digitsVal_append_one, ih ((m + 1) / 10) (by omega)]
      omega

theorem digitsVal_natDigits (n : Nat) : digitsVal (natDigits n) = n := by
  unfold natDigits
  split
  · simp [digitsVal]; omega
  · exact digitsVal_natDigitsAux n n (Nat.le_refl n)

theorem natDigitsAux_lt : ∀ fuel n d, d ∈ natDigitsAux fuel n → d < 10 := by
  intro fuel
  induction fuel with
  | zero => intro n d h; simp [natDigitsAux] at h
  | succ f ih =>
    intro n d h
    match n with
    | 0 => simp [natDigitsAux] at h
    | m + 1 =>
      rw [natDigitsAux] at h
      rcases List.mem_append.mp h with h1 | h1
      · exact ih _ _ h1
      · simp at h1; omega

theorem natDigits_lt (n d : Nat) (h : d ∈ natDigits n) : d < 10 := by
  unfold natDigits at h
  split at h
  · simp at h; omega
  · exact natDigitsAux_lt n n d h

theorem natDigitsAux_ne_nil : ∀ fuel n, n ≠ 0 → n ≤ fuel → natDigitsAux fuel n ≠ [] := by
  intro fuel
  induction fuel with
  | zero => intro n h1 h2; omega
  | succ f ih =>
    intro n h1 h2
    match n with
    | 0 => omega
    | m + 1 => rw [natDigitsAux]; simp

theorem natDigits_ne_nil (n : Nat) : natDigits n ≠ [] := by
  unfold natDigits
  split
  · simp
  · exact natDigitsAux_ne_nil n n (by assumption) (Nat.le_refl n)

/-! ## Characters

Special characters are named via their code points so that every later
definition can dispatch on them by equality tests. -/

/-- Left curly bracket. -/
def cLB : Char := Char.ofNat 123
/-- Right curly bracket. -/
def cRB : Char := Char.ofNat 125
/-- Left square bracket. -/
def cLS : Char := Char.ofNat 91
/-- Right square bracket. -/
def cRS : Char := Char.ofNat 93
/-- Double quote. -/
def cQ : Char := Char.ofNat 34
/-- Backslash. -/
def cBS : Char := Char.ofNat 92
/-- Comma. -/
def cComma : Char := Char.ofNat 44
/-- Colon. -/
def cColon : Char := Char.ofNat 58
/-- Space. -/
def cSp : Char := Char.ofNat 32
/-- Newline. -/
def cNL : Char := Char.ofNat 10
/-- Minus sign. -/
def cMinus : Char := Char.ofNat 45
/-- Decimal point. -/
def cDot : Char := Char.ofNat 46

/-- Decimal digit test on a character (code points 48 to 57). -/
def isDig (c : Char) : Bool := 48 ≤ c.toNat && c.toNat ≤ 57

/-- Numeric value of a decimal digit character. -/
def digVal (c : Char) : Nat := c.toNat - 48

theorem isDig_digitChar : ∀ d, d < 10 → isDig (Nat.digitChar d) = true := by decide

theorem digVal_digitChar : ∀ d, d < 10 → digVal (Nat.digitChar d) = d := by decide

/-! ## Hexadecimal encoding -/

/-- Hex value of a character (digits and lowercase letters), if any. -/
def hexVal (c : Char) : Option Nat :=
  if 48 ≤ c.toNat && c.toNat ≤ 57 then some (c.toNat - 48)
  else if 97 ≤ c.toNat && c.toNat ≤ 102 then some (c.toNat - 87)
  else none

theorem hexVal_digitChar : ∀ n, n < 16 → hexVal (Nat.digitChar n) = some n := by decide

/-- Lowercase hex rendering of a byte list, two characters per byte. -/
def hexEnc : Bytes → List Char
  | [] => []
  | b :: bs => Nat.digitChar (b / 16) :: Nat.digitChar (b % 16) :: hexEnc bs

/-- Parse a hex character list back into bytes (pairs of hex digits). -/
def hexDec : List Char → Option Bytes
  | [] => some []
  | c1 :: c2 :: cs =>
    match hexVal c1, hexVal c2, hexDec cs with
    | some h, some l, some bs => some ((16 * h + l) :: bs)
    | _, _, _ => none
  | _ => none

theorem hexDec_hexEnc : ∀ bs : Bytes, (∀ b ∈ bs, b < 256) → hexDec (hexEnc bs) = some bs := by
  intro bs
  induction bs with
  | nil => intro _; rfl
  | cons b l ih =>
    intro h
    have hb : b < 256 := h b (by simp)
    rw [hexEnc, hexDec, hexVal_digitChar (b / 16) (by omega),
      hexVal_digitChar (b % 16) (by omega), ih (fun x hx => h x (by simp [hx]))]
    have hsplit : 16 * (b / 16) + b % 16 = b := by omega
    show some ((16 * (b / 16) + b % 16) :: l) = some (b :: l)
    rw [hsplit]

theorem hexEnc_length : ∀ bs : Bytes, (hexEnc bs).length = 2 * bs.length := by
  intro bs
  induction bs with
  | nil => rfl
  | cons b l ih => simp [hexEnc, ih]; omega

/-! ## Base64 encoding -/

/-- Character of a 6-bit group in the standard base64 alphabet. -/
def b64char (n : Nat) : Char :=
  if n < 26 then Char.ofNat (65 + n)
  else if n < 52 then Char.ofNat (97 + (n - 26))
  else if n < 62 then Char.ofNat (48 + (n - 52))
  else if n = 62 then Char.ofNat 43
  else Char.ofNat 47

/-- Value of a base64 alphabet character, if any. -/
def b64val (c : Char) : Option Nat :=
  if 65 ≤ c.toNat && c.toNat ≤ 90 then some (c.toNat - 65)
  else if 97 ≤ c.toNat && c.toNat ≤ 122 then some (c.toNat - 97 + 26)
  else if 48 ≤ c.toNat && c.toNat ≤ 57 then some (c.toNat - 48 + 52)
  else if c.toNat = 43 then some 62
  else if c.toNat = 47 then some 63
  else none

theorem b64val_b64char : ∀ n, n < 64 → b64val (b64char n) = some n := by decide

/-- Padding character of base64. -/
def cEq : Char := Char.ofNat 61

theorem b64char_ne_cEq : ∀ n, n < 64 → (b64char n = cEq) = False := by decide

/-- Base64 rendering of a byte list, with padding. -/
def b64encode : Bytes → List Char
  | [] => []
  | [a] => [b64char (a / 4), b64char (a % 4 * 16), cEq, cEq]
  | [a, b] => [b64char (a / 4), b64char (a % 4 * 16 + b / 16), b64char (b % 16 * 4), cEq]
  | a :: b :: c :: rest =>
    b64char (a / 4) :: b64char (a % 4 * 16 + b / 16) ::
      b64char (b % 16 * 4 + c / 64) :: b64char (c % 64) :: b64encode rest

/-- Parse a base64 character list back into bytes, validating padding. -/
def b64decode : List Char → Option Bytes
  | [] => some []
  | c1 :: c2 :: c3 :: c4 :: rest =>
    (b64val c1).bind fun v1 =>
    (b64val c2).bind fun v2 =>
    if c3 = cEq then
      if c4 = cEq ∧ rest = [] ∧ v2 % 16 = 0 then some [v1 * 4 + v2 / 16] else none
    else
      (b64val c3).bind fun v3 =>
      if c4 = cEq then
        if rest = [] ∧ v3 % 4 = 0 then some [v1 * 4 + v2 / 16, v2 % 16 * 16 + v3 / 4]
        else none
      else
        (b64val c4).bind fun v4 =>
        (b64decode rest).map fun l =>
          (v1 * 4 + v2 / 16) :: (v2 % 16 * 16 + v3 / 4) :: (v3 % 4 * 64 + v4) :: l
  | _ => none

/-- Induction principle on lists in blocks of three, matching the base64
grouping. -/
def listTriplesInd (motive : Bytes → Prop)
    (h0 : motive []) (h1 : ∀ a, motive [a]) (h2 : ∀ a b, motive [a, b])
    (h3 : ∀ a b c rest, motive rest → motive (a :: b :: c :: rest)) :
    ∀ l, motive l
  | [] => h0
  | [a] => h1 a
  | [a, b] => h2 a b
  | a :: b :: c :: rest => h3 a b c rest (listTriplesInd motive h0 h1 h2 h3 rest)

theorem b64decode_b64encode : ∀ bs : Bytes, (∀ b ∈ bs, b < 256) →
    b64decode (b64encode bs) = some bs := by
  intro bs
  induction bs using listTriplesInd with
  | h0 => intro _; rfl
  | h1 a =>
    intro h
    have ha : a < 256 := h a (by simp)
    rw [b64encode, b64decode]
    simp only [b64val_b64char (a / 4) (by omega), b64val_b64char (a % 4 * 16) (by omega),
      Option.bind]
    have h0 : a % 4 * 16 % 16 = 0 := by omega
    have hv : a / 4 * 4 + a % 4 * 16 / 16 = a := by omega
    simp [h0, hv]
    omega
  | h2 a b =>
    intro h
    have ha : a < 256 := h a (by simp)
    have hb : b < 256 := h b (by simp)
    rw [b64encode, b64decode]
    simp only [b64val_b64char (a / 4) (by omega),
      b64val_b64char (a % 4 * 16 + b / 16) (by omega), Option.bind]
    rw [if_neg (by simp [b64char_ne_cEq (b % 16 * 4) (by omega)])]
    simp only [b64val_b64char (b % 16 * 4) (by omega), Option.bind]
    have h0 : b % 16 * 4 % 4 = 0 := by omega
    have hv1 : a / 4 * 4 + (a % 4 * 16 + b / 16) / 16 = a := by omega
    have hv2 : (a % 4 * 16 + b / 16) % 16 * 16 + b % 16 * 4 / 4 = b := by omega
    simp [h0, hv1, hv2]
    omega
  | h3 a b c rest ih =>
    intro h
    have ha : a < 256 := h a (by simp)
    have hb : b < 256 := h b (by simp)
    have hc : c < 256 := h c (by simp)
    rw [b64encode, b64decode]
    simp only [b64val_b64char (a / 4) (by omega),
      b64val_b64char (a % 4 * 16 + b / 16) (by omega), Option.bind]
    rw [if_neg (by simp [b64char_ne_cEq (b % 16 * 4 + c / 64) (by omega)])]
    simp only [b64val_b64char (b % 16 * 4 + c / 64) (by omega), Option.bind]
    rw [if_neg (by simp [b64char_ne_cEq (c % 64) (by omega)])]
    simp only [b64val_b64char (c % 64) (by omega), Option.bind]
    rw [ih (fun x hx => h x (by simp [hx]))]
    have hv1 : a / 4 * 4 + (a % 4 * 16 + b / 16) / 16 = a := by omega
    have hv2 : (a % 4 * 16 + b / 16) % 16 * 16 + (b % 16 * 4 + c / 64) / 4 = b := by omega
    have hv3 : (b % 16 * 4 + c / 64) % 4 * 64 + c % 64 = c := by omega
    simp only [Option.map]
    rw [hv1, hv2, hv3]

/-! ## JSON string escaping -/

/-- Modelled from the spec: the renderer's JSON string escaping.  Quote and
backslash receive a backslash escape; every other character is emitted
verbatim. -/
def escChars : List Char → List Char
  | [] => []
  | c :: cs => if c = cQ ∨ c = cBS then cBS :: c :: escChars cs else c :: escChars cs

/-- Modelled from the spec: parse the body of a JSON string up to the closing
quote, handling the escapes the renderer produces.  Fails with `InvalidJson`
on an unterminated string or an unknown escape. -/
def pStrChars : List Char → Except ConvError (List Char × List Char)
  | [] => .error .invalidJson
  | c :: rest =>
    if c = cQ then .ok ([], rest)
    else if c = cBS then
      match rest with
      | [] => .error .invalidJson
      | c2 :: r2 =>
        if c2 = cQ ∨ c2 = cBS then (pStrChars r2).map fun p => (c2 :: p.1, p.2)
        else .error .invalidJson
    else (pStrChars rest).map fun p => (c :: p.1, p.2)

theorem pStrChars_cons (c : Char) (rest : List Char) :
    pStrChars (c :: rest) =
      (if c = cQ then .ok ([], rest)
       else if c = cBS then
        match rest with
        | [] => .error .invalidJson
        | c2 :: r2 =>
          if c2 = cQ ∨ c2 = cBS then (pStrChars r2).map fun p => (c2 :: p.1, p.2)
          else .error .invalidJson
       else (pStrChars rest).map fun p => (c :: p.1, p.2)) := by
  rw [pStrChars.eq_def]

theorem pStrChars_escChars : ∀ (s rest : List Char),
    pStrChars (escChars s ++ cQ :: rest) = .ok (s, rest) := by
  intro s
  induction s with
  | nil =>
    intro rest
    show pStrChars (cQ :: rest) = .ok ([], rest)
    rw [pStrChars_cons, if_pos rfl]
  | cons c cs ih =>
    intro rest
    rw [escChars]
    split
    · next hesc =>
      rw [List.cons_append, List.cons_append, pStrChars_cons,
        if_neg (show ¬(cBS = cQ) by decide), if_pos rfl]
      show (if c = cQ ∨ c = cBS then
          (pStrChars (escChars cs ++ cQ :: rest)).map fun p => (c :: p.1, p.2)
        else Except.error ConvError.invalidJson) = Except.ok (c :: cs, rest)
      rw [if_pos hesc, ih rest]
      rfl
    · next hesc =>
      have h1 : ¬(c = cQ) := fun hh => hesc (Or.inl hh)
      have h2 : ¬(c = cBS) := fun hh => hesc (Or.inr hh)
      rw [List.cons_append, pStrChars_cons, if_neg h1, if_neg h2, ih rest]
      rfl

/-! ## The data model -/

/-- Modelled from the spec: decimal surface form standing in for an IEEE-754
binary64 Double.  The spec's bit-level float semantics are not representable
in this embedding; what the codec transports is the sign, the integer
digits and the fraction digits of the decimal rendering. -/
structure DoubleRepr where
  neg : Bool
  ip : List Nat
  fp : List Nat
  deriving DecidableEq, Repr

/-- Modelled from the spec: the closed Value variant of the data model
section, one constructor per BSON type. -/
inductive Value where
  | double (r : DoubleRepr)
  | str (s : String)
  | doc (fields : List (String × Value))
  | arr (xs : List Value)
  | binary (subtype : Nat) (bytes : Bytes)
  | objectId (bytes : Bytes)
  | boolean (b : Bool)
  | dateTime (millis : Int)
  | null
  | regex (pat : String) (opts : String)
  | jsCode (code : String)
  | int32 (v : Int)
  | timestamp (inc : Nat) (sec : Nat)
  | int64 (v : Int)
  | decimal128 (bytes : Bytes)
  | minKey
  | maxKey
  deriving Repr

/-- Modelled from the spec: a Document is an ordered mapping from string
keys to Values, kept as an association list so that insertion order is part
of the value. -/
abbrev Document := List (String × Value)

/-- Modelled from the spec: JSON values, with numbers kept in decimal
surface form (sign, integer digits, fraction digits; an integer has no
fraction digits). -/
inductive Json where
  | jstr (s : String)
  | jnum (neg : Bool) (ip : List Nat) (fp : List Nat)
  | jbool (b : Bool)
  | jnull
  | jarr (xs : List Json)
  | jobj (fields : List (String × Json))
  deriving Repr

/-- JSON number of a natural number. -/
def natToJnum (n : Nat) : Json := .jnum false (natDigits n) []

/-- JSON number of an integer. -/
def intToJnum (v : Int) : Json := .jnum (decide (v < 0)) (natDigits v.natAbs) []

/-- Characters of the decimal rendering of an integer. -/
def intChars (v : Int) : List Char :=
  (if v < 0 then [cMinus] else []) ++ (natDigits v.natAbs).map Nat.digitChar

/-- Decimal string of an integer. -/
def intStr (v : Int) : String := String.mk (intChars v)

/-- Parse the decimal rendering of an integer (optional leading minus,
then decimal digits). -/
def parseIntChars : List Char → Option Int
  | [] => none
  | c :: cs =>
    if c = cMinus then
      if cs ≠ [] ∧ cs.all isDig then some (-(digitsVal (cs.map digVal) : Int)) else none
    else
      if (c :: cs).all isDig then some ((digitsVal ((c :: cs).map digVal) : Int)) else none

mutual

/-- Modelled from the spec: the BSON→JSON direction of the JSON Bridge.
Double, String, Boolean, Null, Int32, Array and Document map to native JSON
values; every other type becomes a single-key wrapper object naming the
BSON type. -/
def valueToJson : Value → Json
  | .double r => .jnum r.neg r.ip r.fp
  | .str s => .jstr s
  | .doc fs => .jobj (vFields fs)
  | .arr xs => .jarr (vElems xs)
  | .binary st bs => .jobj [("$binary", .jobj
      [("base64", .jstr (String.mk (b64encode bs))),
       ("subType", .jstr (String.mk (hexEnc [st])))])]
  | .objectId bs => .jobj [("$oid", .jstr (String.mk (hexEnc bs)))]
  | .boolean b => .jbool b
  | .dateTime ms => .jobj [("$date", intToJnum ms)]
  | .null => .jnull
  | .regex p o => .jobj [("$regularExpression", .jobj
      [("pattern", .jstr p), ("options", .jstr o)])]
  | .jsCode s => .jobj [("$code", .jstr s)]
  | .int32 v => intToJnum v
  | .timestamp inc sec => .jobj [("$timestamp", .jobj
      [("t", natToJnum sec), ("i", natToJnum inc)])]
  | .int64 v => .jobj [("$numberLong", .jstr (intStr v))]
  | .decimal128 bs => .jobj [("$numberDecimal", .jstr (String.mk (hexEnc bs)))]
  | .minKey => .jobj [("$minKey", natToJnum 1)]
  | .maxKey => .jobj [("$maxKey", natToJnum 1)]

/-- JSON images of document fields. -/
def vFields : List (String × Value) → List (String × Json)
  | [] => []
  | (k, v) :: fs => (k, valueToJson v) :: vFields fs

/-- JSON images of array elements. -/
def vElems : List Value → List Json
  | [] => []
  | v :: vs => valueToJson v :: vElems vs

end

/-- Signed value of a JSON integer surface form. -/
def jnumToInt (neg : Bool) (ip : List Nat) : Int :=
  if neg then -(digitsVal ip : Int) else (digitsVal ip : Int)

/-- Modelled from the spec: recognition of wrapped-type objects in the
JSON→BSON direction.  A single-key object whose key names a BSON type and
whose payload is well formed is reconstructed as the corresponding typed
Value; anything else is not recognized and stays a plain document. -/
def recognize : List (String × Json) → Option Value
  | [(k, .jstr s)] =>
    if k = "$oid" then
      if s.data.length = 24 then (hexDec s.data).map .objectId else none
    else if k = "$numberLong" then
      (parseIntChars s.data).bind fun v =>
        if -9223372036854775808 ≤ v ∧ v < 9223372036854775808 then some (.int64 v) else none
    else if k = "$numberDecimal" then
      if s.data.length = 32 then (hexDec s.data).map .decimal128 else none
    else if k = "$code" then some (.jsCode s)
    else none
  | [(k, .jnum neg ip fp)] =>
    if k = "$date" then
      if fp = [] ∧ ip ≠ [] ∧ ip.all (· < 10) ∧
          -9223372036854775808 ≤ jnumToInt neg ip ∧
          jnumToInt neg ip < 9223372036854775808 then
        some (.dateTime (jnumToInt neg ip))
      else none
    else if k = "$minKey" then
      if neg = false ∧ ip = [1] ∧ fp = [] then some .minKey else none
    else if k = "$maxKey" then
      if neg = false ∧ ip = [1] ∧ fp = [] then some .maxKey else none
    else none
  | [(k, .jobj inner)] =>
    if k = "$binary" then
      match inner with
      | [(k1, .jstr b64s), (k2, .jstr sts)] =>
        if k1 = "base64" ∧ k2 = "subType" ∧ sts.data.length = 2 then
          (b64decode b64s.data).bind fun bs =>
            (hexDec sts.data).bind fun stl =>
              match stl with
              | [st] => some (.binary st bs)
              | _ => none
        else none
      | _ => none
    else if k = "$regularExpression" then
      match inner with
      | [(k1, .jstr p), (k2, .jstr o)] =>
        if k1 = "pattern" ∧ k2 = "options" then some (.regex p o) else none
      | _ => none
    else if k = "$timestamp" then
      match inner with
      | [(k1, .jnum n1 ip1 fp1), (k2, .jnum n2 ip2 fp2)] =>
        if k1 = "t" ∧ k2 = "i" ∧ n1 = false ∧ n2 = false ∧ fp1 = [] ∧ fp2 = [] ∧
            ip1 ≠ [] ∧ ip2 ≠ [] ∧ ip1.all (· < 10) ∧ ip2.all (· < 10) ∧
            digitsVal ip1 < 4294967296 ∧ digitsVal ip2 < 4294967296 then
          some (.timestamp (digitsVal ip2) (digitsVal ip1))
        else none
      | _ => none
    else none
  | _ => none

/-- Modelled from the spec: classification of a native JSON number — an
integer within 32-bit range becomes Int32, a larger integer within 64-bit
range becomes Int64, and every other number becomes Double. -/
def numToValue (neg : Bool) (ip fp : List Nat) : Value :=
  if fp = [] then
    let v := jnumToInt neg ip
    if -2147483648 ≤ v ∧ v < 2147483648 then .int32 v
    else if -9223372036854775808 ≤ v ∧ v < 9223372036854775808 then .int64 v
    else .double ⟨neg, ip, fp⟩
  else .double ⟨neg, ip, fp⟩

mutual

/-- Modelled from the spec: the JSON→BSON direction of the JSON Bridge.
Wrapped-type objects are reconstructed as typed Values; everything else maps
to its direct BSON counterpart. -/
def jsonToValue : Json → Value
  | .jstr s => .str s
  | .jnum neg ip fp => numToValue neg ip fp
  | .jbool b => .boolean b
  | .jnull => .null
  | .jarr xs => .arr (jElems xs)
  | .jobj fields =>
    match recognize fields with
    | some v => v
    | none => .doc (jFields fields)

/-- Value images of JSON object fields. -/
def jFields : List (String × Json) → List (String × Value)
  | [] => []
  | (k, j) :: fs => (k, jsonToValue j) :: jFields fs

/-- Value images of JSON array elements. -/
def jElems : List Json → List Value
  | [] => []
  | j :: js => jsonToValue j :: jElems js

end

/-! ## Validity -/

/-- Nonempty digit list with every digit below ten. -/
def digsOk (ds : List Nat) : Bool := !ds.isEmpty && ds.all (· < 10)

/-- String free of NUL characters (required of cstring-encoded text). -/
def noNulStr (s : String) : Bool := s.data.all fun c => decide (c.toNat ≠ 0)

/-- Pairwise-distinct strings. -/
def distinctKeys : List String → Bool
  | [] => true
  | k :: ks => !ks.contains k && distinctKeys ks

mutual

/-- Modelled from the spec: validity of a Value, carrying a budget that
bounds the JSON nesting depth of its image (documents, arrays and wrapper
objects each consume nesting).  Scalar side conditions follow the data-model
invariants: ObjectId is exactly 12 bytes, Decimal128 exactly 16, integers in
range, keys unique, cstring text free of NUL, and no plain sub-document may
collide with a recognized wrapper shape. -/
def validVal : Nat → Value → Bool
  | _, .double r => digsOk r.ip && digsOk r.fp
  | _, .str _ => true
  | b, .doc fs => decide (0 < b) && distinctKeys (fs.map Prod.fst) &&
      (recognize (vFields fs)).isNone && validFields (b - 1) fs
  | b, .arr xs => decide (0 < b) && validElems (b - 1) xs
  | b, .binary st bs => decide (2 ≤ b) && decide (st < 256) &&
      bs.all fun x => decide (x < 256)
  | b, .objectId bs => decide (1 ≤ b) && decide (bs.length = 12) &&
      bs.all fun x => decide (x < 256)
  | _, .boolean _ => true
  | b, .dateTime ms => decide (1 ≤ b) && decide (-9223372036854775808 ≤ ms) &&
      decide (ms < 9223372036854775808)
  | _, .null => true
  | b, .regex p o => decide (2 ≤ b) && noNulStr p && noNulStr o
  | b, .jsCode _ => decide (1 ≤ b)
  | _, .int32 v => decide (-2147483648 ≤ v) && decide (v < 2147483648)
  | b, .timestamp inc sec => decide (2 ≤ b) && decide (inc < 4294967296) &&
      decide (sec < 4294967296)
  | b, .int64 v => decide (1 ≤ b) && decide (-9223372036854775808 ≤ v) &&
      decide (v < 9223372036854775808)
  | b, .decimal128 bs => decide (1 ≤ b) && decide (bs.length = 16) &&
      bs.all fun x => decide (x < 256)
  | b, .minKey => decide (1 ≤ b)
  | b, .maxKey => decide (1 ≤ b)

/-- Validity of document fields at a given budget. -/
def validFields : Nat → List (String × Value) → Bool
  | _, [] => true
  | b, (k, v) :: fs => noNulStr k && validVal b v && validFields b fs

/-- Validity of array elements at a given budget. -/
def validElems : Nat → List Value → Bool
  | _, [] => true
  | b, v :: vs => validVal b v && validElems b vs

end

/-- Modelled from the spec: a valid Document — unique keys at every level,
the structural side conditions of the data model on every value, and
nesting within the depth limit of 1000 (the top-level document consumes one
level). -/
def ValidDoc (d : Document) : Bool :=
  distinctKeys (d.map Prod.fst) && validFields 999 d

theorem digitChar_code : ∀ d, d < 10 → (Nat.digitChar d).toNat ≠ 0 := by decide

/-- Decimal string of an array index. -/
def idxKey (i : Nat) : String := String.mk ((natDigits i).map Nat.digitChar)

theorem noNul_idxKey (i : Nat) : noNulStr (idxKey i) = true := by
  simp only [noNulStr, idxKey, List.all_eq_true]
  intro c hc
  simp only [List.mem_map] at hc
  obtain ⟨d, hd, rfl⟩ := hc
  simpa using digitChar_code d (natDigits_lt i d hd)

/-! ## The BSON Writer -/

/-- Modelled from the spec: type tag byte of each Value variant, per the
BSON specification. -/
def typeByte : Value → Nat
  | .double _ => 1
  | .str _ => 2
  | .doc _ => 3
  | .arr _ => 4
  | .binary _ _ => 5
  | .objectId _ => 7
  | .boolean _ => 8
  | .dateTime _ => 9
  | .null => 10
  | .regex _ _ => 11
  | .jsCode _ => 13
  | .int32 _ => 16
  | .timestamp _ _ => 17
  | .int64 _ => 18
  | .decimal128 _ => 19
  | .minKey => 255
  | .maxKey => 127

/-- Character codes of a string, one unit per character. -/
def strUnits (s : String) : Bytes := s.data.map Char.toNat

/-- Modelled from the spec: cstring layout — the text then a NUL. -/
def cstr (s : String) : Bytes := strUnits s ++ [0]

/-- Modelled from the spec: length-prefixed string layout — the prefix
counts the characters plus the NUL terminator. -/
def lpStr (s : String) : Bytes := le32 (s.data.length + 1) ++ strUnits s ++ [0]

/-- Length-prefixed digit list (a component of the Double payload
stand-in). -/
def lpDigits (ds : List Nat) : Bytes := le32 ds.length ++ ds

/-- Little-endian 4-byte encoding of a 32-bit quantity. -/
def le32m (n : Nat) : Bytes := [n % 256, n / 256 % 256, n / 65536 % 256, n / 16777216 % 256]

/-- Two's-complement image of a signed 32-bit integer. -/
def intToU32 (v : Int) : Nat := (v % 4294967296).toNat

/-- Signed interpretation of a 32-bit two's-complement quantity. -/
def u32ToInt (n : Nat) : Int :=
  if n < 2147483648 then (n : Int) else (n : Int) - 4294967296

theorem u32ToInt_intToU32 (v : Int)
    (h0 : -2147483648 ≤ v) (h1 : v < 2147483648) :
    u32ToInt (intToU32 v) = v := by
  unfold u32ToInt intToU32
  split <;> omega

theorem intToU32_lt (v : Int) : intToU32 v < 4294967296 := by
  unfold intToU32
  omega

theorem le32val_le32m (n : Nat) (h : n < 4294967296) :
    le32val (n % 256) (n / 256 % 256) (n / 65536 % 256) (n / 16777216 % 256) = n := by
  unfold le32val
  omega

mutual

/-- Modelled from the spec: payload bytes of one Value (BSON Writer).
Every numeric field is fixed-width little-endian; strings are
length-prefixed with NUL terminator; cstrings are NUL-terminated;
sub-documents and arrays carry their own self-inclusive length prefix and
terminating NUL, arrays storing their elements under decimal index keys. -/
def encVal : Value → Bytes
  | .double r => (if r.neg then [1] else [0]) ++ lpDigits r.ip ++ lpDigits r.fp
  | .str s => lpStr s
  | .doc fs =>
    let body := encFields fs
    le32 (body.length + 5) ++ body ++ [0]
  | .arr xs =>
    let body := encElems 0 xs
    le32 (body.length + 5) ++ body ++ [0]
  | .binary st bs => le32 bs.length ++ st :: bs
  | .objectId bs => bs
  | .boolean b => [if b then 1 else 0]
  | .dateTime ms => le64 (intToU64 ms)
  | .null => []
  | .regex p o => cstr p ++ cstr o
  | .jsCode s => lpStr s
  | .int32 v => le32m (intToU32 v)
  | .timestamp inc sec => le32m inc ++ le32m sec
  | .int64 v => le64 (intToU64 v)
  | .decimal128 bs => bs
  | .minKey => []
  | .maxKey => []

/-- Body bytes of a document: type byte, key cstring and payload for every
entry, in original key order. -/
def encFields : List (String × Value) → Bytes
  | [] => []
  | (k, v) :: fs => typeByte v :: (cstr k ++ encVal v) ++ encFields fs

/-- Body bytes of an array: entries under decimal index keys, in order. -/
def encElems : Nat → List Value → Bytes
  | _, [] => []
  | i, v :: vs =>
    typeByte v :: (cstr (idxKey i) ++ encVal v) ++ encElems (i + 1) vs

end

/-- Modelled from the spec: `encode(Document) -> bytes`, the BSON Writer:
body bytes in original key order, prefixed by the self-inclusive 4-byte
length and closed by the terminating NUL. -/
def encode (d : Document) : Bytes :=
  let body := encFields d
  le32 (body.length + 5) ++ body ++ [0]

/-! ## The BSON Reader -/

/-- Promote an optional read to the Reader's error monad. -/
def liftO {α : Type} : Option α → Except ConvError α
  | some a => .ok a
  | none => .error .malformedBson

/-- Demand a NUL unit and return what follows it. -/
def rNul : Bytes → Except ConvError Bytes
  | 0 :: r => .ok r
  | _ => .error .malformedBson

/-- Read the 4-unit little-endian length field. -/
def rLen : Bytes → Except ConvError (Nat × Bytes)
  | b0 :: b1 :: b2 :: b3 :: rest => .ok (le32val b0 b1 b2 b3, rest)
  | _ => .error .malformedBson

/-- Read a cstring: units up to the first NUL. -/
def rCstr : Bytes → Except ConvError (String × Bytes)
  | [] => .error .malformedBson
  | u :: rest =>
    if u = 0 then .ok ("", rest)
    else (rCstr rest).map fun p => (String.mk (Char.ofNat u :: p.1.data), p.2)

/-- Read a length-prefixed string: prefix, characters, NUL terminator. -/
def rLpStr (input : Bytes) : Except ConvError (String × Bytes) :=
  (rLen input).bind fun p =>
    if p.1 = 0 then .error .malformedBson
    else
      (liftO (takeE (p.1 - 1) p.2)).bind fun q =>
        (rNul q.2).map fun r3 => (String.mk (q.1.map Char.ofNat), r3)

/-- Read a length-prefixed digit list. -/
def rDigits (input : Bytes) : Except ConvError (List Nat × Bytes) :=
  (rLen input).bind fun p => liftO (takeE p.1 p.2)

mutual

/-- Modelled from the spec: the BSON Reader document loop.  Reads the 4-unit
length prefix, splits off exactly the declared body, demands the terminating
NUL, and parses the body to its exact end — a declared length inconsistent
with the available bytes, a missing terminator, and trailing or missing body
bytes are all `MalformedBson`.  The first argument is step fuel (decremented
on every call), the second the remaining nesting budget. -/
def rDoc : Nat → Nat → Bytes → Except ConvError (Document × Bytes)
  | 0, _, _ => .error .malformedBson
  | _ + 1, 0, _ => .error .malformedBson
  | f + 1, depth + 1, input =>
    (rLen input).bind fun p =>
      if p.1 < 5 then .error .malformedBson
      else
        (liftO (takeE (p.1 - 5) p.2)).bind fun q =>
          (rNul q.2).bind fun r3 =>
            (rFields f depth q.1).map fun fs => (fs, r3)
termination_by structural f _ _ => f

/-- Field loop of the Reader: (type byte, key cstring, payload) until the
body is exhausted. -/
def rFields : Nat → Nat → Bytes → Except ConvError Document
  | 0, _, _ => .error .malformedBson
  | _ + 1, _, [] => .ok []
  | f + 1, depth, t :: rest =>
    (rCstr rest).bind fun pk =>
      (rVal f depth t pk.2).bind fun pv =>
        (rFields f depth pv.2).map fun fs => (pk.1, pv.1) :: fs
termination_by structural f _ _ => f

/-- Payload reader of the Reader, one case per recognized type tag; an
unrecognized tag is `MalformedBson`. -/
def rVal : Nat → Nat → Nat → Bytes → Except ConvError (Value × Bytes)
  | 0, _, _, _ => .error .malformedBson
  | f + 1, depth, t, input =>
    if t = 1 then
      match input with
      | nb :: r1 =>
        if nb = 0 ∨ nb = 1 then
          (rDigits r1).bind fun pi =>
            (rDigits pi.2).map fun pf => (.double ⟨decide (nb = 1), pi.1, pf.1⟩, pf.2)
        else .error .malformedBson
      | [] => .error .malformedBson
    else if t = 2 then (rLpStr input).map fun p => (.str p.1, p.2)
    else if t = 3 then (rDoc f depth input).map fun p => (.doc p.1, p.2)
    else if t = 4 then (rDoc f depth input).map fun p => (.arr (p.1.map Prod.snd), p.2)
    else if t = 5 then
      (rLen input).bind fun pn =>
        match pn.2 with
        | st :: r1 => (liftO (takeE pn.1 r1)).map fun q => (.binary st q.1, q.2)
        | [] => .error .malformedBson
    else if t = 7 then
      (liftO (takeE 12 input)).map fun q => (.objectId q.1, q.2)
    else if t = 8 then
      match input with
      | u :: r1 =>
        if u = 0 then .ok (.boolean false, r1)
        else if u = 1 then .ok (.boolean true, r1)
        else .error .malformedBson
      | [] => .error .malformedBson
    else if t = 9 then
      match input with
      | b0 :: b1 :: b2 :: b3 :: b4 :: b5 :: b6 :: b7 :: r =>
        .ok (.dateTime (u64ToInt (le64val b0 b1 b2 b3 b4 b5 b6 b7)), r)
      | _ => .error .malformedBson
    else if t = 10 then .ok (.null, input)
    else if t = 11 then
      (rCstr input).bind fun pp =>
        (rCstr pp.2).map fun po => (.regex pp.1 po.1, po.2)
    else if t = 13 then (rLpStr input).map fun p => (.jsCode p.1, p.2)
    else if t = 16 then
      match input with
      | b0 :: b1 :: b2 :: b3 :: r =>
        .ok (.int32 (u32ToInt (le32val b0 b1 b2 b3)), r)
      | _ => .error .malformedBson
    else if t = 17 then
      match input with
      | b0 :: b1 :: b2 :: b3 :: b4 :: b5 :: b6 :: b7 :: r =>
        .ok (.timestamp (le32val b0 b1 b2 b3) (le32val b4 b5 b6 b7), r)
      | _ => .error .malformedBson
    else if t = 18 then
      match input with
      | b0 :: b1 :: b2 :: b3 :: b4 :: b5 :: b6 :: b7 :: r =>
        .ok (.int64 (u64ToInt (le64val b0 b1 b2 b3 b4 b5 b6 b7)), r)
      | _ => .error .malformedBson
    else if t = 19 then
      (liftO (takeE 16 input)).map fun q => (.decimal128 q.1, q.2)
    else if t = 255 then .ok (.minKey, input)
    else if t = 127 then .ok (.maxKey, input)
    else .error .malformedBson
termination_by structural f _ _ _ => f

end

/-- Modelled from the spec: `decode(bytes) -> Document`, the BSON Reader.
The step fuel is the buffer length plus one; the nesting limit is 1000;
trailing bytes after the top-level document are `MalformedBson`. -/
def decode (input : Bytes) : Except ConvError Document :=
  (rDoc (input.length + 1) 1000 input).bind fun p =>
    if p.2 = [] then .ok p.1 else .error .malformedBson

/-! ## Reader/Writer inversion: payload lemmas -/

theorem strUnits_length (s : String) : (strUnits s).length = s.data.length := by
  simp [strUnits]

theorem rLen_le32 (n : Nat) (rest : Bytes) : rLen (le32 n ++ rest) = .ok (n, rest) := by
  simp only [le32, List.cons_append, List.nil_append, rLen]
  rw [le32val_le32]

theorem rCstr_chars : ∀ (l : List Char) (rest : Bytes),
    (∀ c ∈ l, c.toNat ≠ 0) →
    rCstr (l.map Char.toNat ++ [0] ++ rest) = .ok (String.mk l, rest) := by
  intro l
  induction l with
  | nil =>
    intro rest h
    simp [rCstr]
  | cons c cs ih =>
    intro rest h
    have hc : c.toNat ≠ 0 := h c (by simp)
    simp only [List.map_cons, List.cons_append, rCstr, if_neg hc, List.append_eq]
    rw [ih rest (fun x hx => h x (by simp [hx]))]
    simp [Except.map, Char.ofNat_toNat]

theorem rCstr_cstr (s : String) (rest : Bytes) (h : noNulStr s = true) :
    rCstr (cstr s ++ rest) = .ok (s, rest) := by
  have h2 : ∀ c ∈ s.data, c.toNat ≠ 0 := by
    intro c hc
    have := (List.all_eq_true.mp h) c hc
    simpa using this
  have h3 := rCstr_chars s.data rest h2
  simpa [cstr, strUnits] using h3

theorem rLpStr_lpStr (s : String) (rest : Bytes) :
    rLpStr (lpStr s ++ rest) = .ok (s, rest) := by
  unfold rLpStr lpStr
  simp only [List.append_assoc, rLen_le32, Except.bind, Nat.succ_ne_zero, if_false,
    Nat.add_sub_cancel, List.singleton_append]
  rw [← strUnits_length s, takeE_append]
  simp only [liftO, Except.bind]
  have hnul : rNul (0 :: rest) = .ok rest := rfl
  rw [hnul]
  simp only [Except.map, strUnits, List.map_map]
  have hmap : (s.data.map (Char.ofNat ∘ Char.toNat)) = s.data.map id := by
    apply List.map_congr_left
    intro c _
    simp [Char.ofNat_toNat]
  simp [hmap]

theorem rDigits_lp (ds : List Nat) (rest : Bytes) :
    rDigits (lpDigits ds ++ rest) = .ok (ds, rest) := by
  unfold rDigits lpDigits
  simp only [List.append_assoc, rLen_le32, Except.bind]
  rw [takeE_append]
  rfl

theorem rDoc_body (B : Bytes) (fs : Document) (f depth : Nat) (rest : Bytes)
    (h : rFields f depth B = .ok fs) :
    rDoc (f + 1) (depth + 1) (le32 (B.length + 5) ++ (B ++ ([0] ++ rest))) = .ok (fs, rest) := by
  rw [rDoc, rLen_le32]
  simp only [Except.bind]
  rw [if_neg (by omega)]
  have h5 : B.length + 5 - 5 = B.length := by omega
  rw [h5, List.singleton_append, takeE_append]
  simp only [liftO, Except.bind]
  have hnul : rNul (0 :: rest) = .ok rest := rfl
  rw [hnul, h]
  rfl

/-! ## Reader dispatch lemmas, one per type tag -/

theorem rVal_t1 (f depth nb : Nat) (r1 : Bytes) :
    rVal (f + 1) depth 1 (nb :: r1) = (if nb = 0 ∨ nb = 1 then
      (rDigits r1).bind fun pi =>
        (rDigits pi.2).map fun pf => (.double ⟨decide (nb = 1), pi.1, pf.1⟩, pf.2)
    else .error .malformedBson) := by
  simp [rVal.eq_def]

theorem rVal_t2 (f depth : Nat) (input : Bytes) :
    rVal (f + 1) depth 2 input = (rLpStr input).map fun p => (.str p.1, p.2) := by
  simp [rVal.eq_def]

theorem rVal_t3 (f depth : Nat) (input : Bytes) :
    rVal (f + 1) depth 3 input = (rDoc f depth input).map fun p => (.doc p.1, p.2) := by
  simp [rVal.eq_def]

theorem rVal_t4 (f depth : Nat) (input : Bytes) :
    rVal (f + 1) depth 4 input =
      (rDoc f depth input).map fun p => (.arr (p.1.map Prod.snd), p.2) := by
  simp [rVal.eq_def]

theorem rVal_t5 (f depth st : Nat) (r1 : Bytes) (n : Nat) (input : Bytes)
    (h : rLen input = .ok (n, st :: r1)) :
    rVal (f + 1) depth 5 input = (liftO (takeE n r1)).map fun q => (.binary st q.1, q.2) := by
  simp [rVal.eq_def, h, Except.bind]

theorem rVal_t7 (f depth : Nat) (input : Bytes) :
    rVal (f + 1) depth 7 input = (liftO (takeE 12 input)).map fun q => (.objectId q.1, q.2) := by
  simp [rVal.eq_def]

theorem rVal_t8 (f depth u : Nat) (r1 : Bytes) :
    rVal (f + 1) depth 8 (u :: r1) =
      (if u = 0 then .ok (.boolean false, r1)
       else if u = 1 then .ok (.boolean true, r1)
       else .error .malformedBson) := by
  simp [rVal.eq_def]

theorem rVal_t9 (f depth b0 b1 b2 b3 b4 b5 b6 b7 : Nat) (r : Bytes) :
    rVal (f + 1) depth 9 (b0 :: b1 :: b2 :: b3 :: b4 :: b5 :: b6 :: b7 :: r) =
      .ok (.dateTime (u64ToInt (le64val b0 b1 b2 b3 b4 b5 b6 b7)), r) := by
  simp [rVal.eq_def]

theorem rVal_t10 (f depth : Nat) (input : Bytes) :
    rVal (f + 1) depth 10 input = .ok (.null, input) := by
  simp [rVal.eq_def]

theorem rVal_t11 (f depth : Nat) (input : Bytes) :
    rVal (f + 1) depth 11 input = (rCstr input).bind fun pp =>
      (rCstr pp.2).map fun po => (.regex pp.1 po.1, po.2) := by
  simp [rVal.eq_def]

theorem rVal_t13 (f depth : Nat) (input : Bytes) :
    rVal (f + 1) depth 13 input = (rLpStr input).map fun p => (.jsCode p.1, p.2) := by
  simp [rVal.eq_def]

theorem rVal_t16 (f depth b0 b1 b2 b3 : Nat) (r : Bytes) :
    rVal (f + 1) depth 16 (b0 :: b1 :: b2 :: b3 :: r) =
      .ok (.int32 (u32ToInt (le32val b0 b1 b2 b3)), r) := by
  simp [rVal.eq_def]

theorem rVal_t17 (f depth b0 b1 b2 b3 b4 b5 b6 b7 : Nat) (r : Bytes) :
    rVal (f + 1) depth 17 (b0 :: b1 :: b2 :: b3 :: b4 :: b5 :: b6 :: b7 :: r) =
      .ok (.timestamp (le32val b0 b1 b2 b3) (le32val b4 b5 b6 b7), r) := by
  simp [rVal.eq_def]

theorem rVal_t18 (f depth b0 b1 b2 b3 b4 b5 b6 b7 : Nat) (r : Bytes) :
    rVal (f + 1) depth 18 (b0 :: b1 :: b2 :: b3 :: b4 :: b5 :: b6 :: b7 :: r) =
      .ok (.int64 (u64ToInt (le64val b0 b1 b2 b3 b4 b5 b6 b7)), r) := by
  simp [rVal.eq_def]

theorem rVal_t19 (f depth : Nat) (input : Bytes) :
    rVal (f + 1) depth 19 input =
      (liftO (takeE 16 input)).map fun q => (.decimal128 q.1, q.2) := by
  simp [rVal.eq_def]

theorem rVal_t255 (f depth : Nat) (input : Bytes) :
    rVal (f + 1) depth 255 input = .ok (.minKey, input) := by
  simp [rVal.eq_def]

theorem rVal_t127 (f depth : Nat) (input : Bytes) :
    rVal (f + 1) depth 127 input = .ok (.maxKey, input) := by
  simp [rVal.eq_def]


/-! ## Reader/Writer inversion -/

/-- Combined inversion of the Reader over the Writer, by strong induction on
step fuel: a payload reads back to its Value, a field list to its fields, an
array body to elements whose stored index keys project away. -/
theorem readerInv : ∀ f : Nat,
    (∀ v depth rest b, validVal b v = true → b ≤ depth →
      (encVal v).length < f →
      rVal f depth (typeByte v) (encVal v ++ rest) = .ok (v, rest)) ∧
    (∀ fs depth b, validFields b fs = true → b ≤ depth →
      (encFields fs).length < f →
      rFields f depth (encFields fs) = .ok fs) ∧
    (∀ xs i depth b, validElems b xs = true → b ≤ depth →
      (encElems i xs).length < f →
      ∃ gs, rFields f depth (encElems i xs) = .ok gs ∧ gs.map Prod.snd = xs) := by
  intro f
  induction f using Nat.strong_induction_on with
  | _ f ih =>
  match f with
  | 0 =>
    exact ⟨fun v _ _ _ _ _ h => absurd h (by omega),
      fun fs _ _ _ _ h => absurd h (by omega),
      fun xs i _ _ _ _ h => absurd h (by omega)⟩
  | g + 1 =>
    refine ⟨?_, ?_, ?_⟩
    · intro v depth rest b hv hbd hf
      cases v with
      | double r =>
        obtain ⟨neg, ip, fp⟩ := r
        cases neg <;>
          simp [typeByte, encVal, List.append_assoc, rVal_t1, rDigits_lp, Except.bind,
            Except.map]
      | str s =>
        simp [typeByte, encVal, rVal_t2, rLpStr_lpStr, Except.map]
      | doc fs =>
        simp only [validVal, Bool.and_eq_true, decide_eq_true_eq,
          Option.isNone_iff_eq_none] at hv
        obtain ⟨⟨⟨hb, hdk⟩, hrec⟩, hvf⟩ := hv
        have hlen : (encVal (.doc fs)).length = (encFields fs).length + 5 := by
          simp [encVal, le32]
        obtain ⟨dd, rfl⟩ : ∃ dd, depth = dd + 1 := ⟨depth - 1, by omega⟩
        obtain ⟨gg, rfl⟩ : ∃ gg, g = gg + 1 := ⟨g - 1, by omega⟩
        have hffuel : (encFields fs).length < gg := by omega
        have hfields := (ih gg (by omega)).2.1 fs dd (b - 1) hvf (by omega) hffuel
        have hbody := rDoc_body (encFields fs) fs gg dd rest hfields
        simp only [typeByte]
        rw [show encVal (.doc fs) ++ rest =
          le32 ((encFields fs).length + 5) ++ (encFields fs ++ ([0] ++ rest)) by
            simp [encVal, List.append_assoc]]
        rw [rVal_t3, hbody]
        rfl
      | arr xs =>
        simp only [validVal, Bool.and_eq_true, decide_eq_true_eq] at hv
        obtain ⟨hb, hvx⟩ := hv
        have hlen : (encVal (.arr xs)).length = (encElems 0 xs).length + 5 := by
          simp [encVal, le32]
        obtain ⟨dd, rfl⟩ : ∃ dd, depth = dd + 1 := ⟨depth - 1, by omega⟩
        obtain ⟨gg, rfl⟩ : ∃ gg, g = gg + 1 := ⟨g - 1, by omega⟩
        have hefuel : (encElems 0 xs).length < gg := by omega
        obtain ⟨gs, hgs, hmap⟩ :=
          (ih gg (by omega)).2.2 xs 0 dd (b - 1) hvx (by omega) hefuel
        have hbody := rDoc_body (encElems 0 xs) gs gg dd rest hgs
        simp only [typeByte]
        rw [show encVal (.arr xs) ++ rest =
          le32 ((encElems 0 xs).length + 5) ++ (encElems 0 xs ++ ([0] ++ rest)) by
            simp [encVal, List.append_assoc]]
        rw [rVal_t4, hbody]
        simp [Except.map, hmap]
      | binary st bs =>
        simp only [typeByte]
        rw [show encVal (.binary st bs) ++ rest =
          le32 bs.length ++ (st :: (bs ++ rest)) by simp [encVal, List.append_assoc]]
        rw [rVal_t5 g depth st (bs ++ rest) bs.length _ (rLen_le32 _ _), takeE_append]
        rfl
      | objectId bs =>
        simp only [validVal, Bool.and_eq_true, decide_eq_true_eq] at hv
        obtain ⟨⟨hb, hlen⟩, hbytes⟩ := hv
        simp only [typeByte, encVal]
        have h12 := takeE_append bs rest
        rw [hlen] at h12
        rw [rVal_t7, h12]
        rfl
      | boolean bv =>
        cases bv <;> simp [typeByte, encVal, rVal_t8]
      | dateTime ms =>
        simp only [validVal, Bool.and_eq_true, decide_eq_true_eq] at hv
        obtain ⟨⟨hb, h0⟩, h1⟩ := hv
        simp only [typeByte, encVal, le64, List.cons_append, List.nil_append]
        rw [rVal_t9, le64val_le64 _ (intToU64_lt ms), u64ToInt_intToU64 ms h0 h1]
      | null =>
        simp [typeByte, encVal, rVal_t10]
      | regex p o =>
        simp only [validVal, Bool.and_eq_true] at hv
        obtain ⟨⟨hb, hp⟩, ho⟩ := hv
        simp only [typeByte, encVal, List.append_assoc]
        rw [rVal_t11, rCstr_cstr p _ hp]
        simp only [Except.bind]
        rw [rCstr_cstr o _ ho]
        rfl
      | jsCode s =>
        simp [typeByte, encVal, rVal_t13, rLpStr_lpStr, Except.map]
      | int32 v =>
        simp only [validVal, Bool.and_eq_true, decide_eq_true_eq] at hv
        obtain ⟨h0, h1⟩ := hv
        simp only [typeByte, encVal, le32m, List.cons_append, List.nil_append]
        rw [rVal_t16, le32val_le32m _ (intToU32_lt v), u32ToInt_intToU32 v h0 h1]
      | timestamp inc sec =>
        simp only [validVal, Bool.and_eq_true, decide_eq_true_eq] at hv
        obtain ⟨⟨hb, hinc⟩, hsec⟩ := hv
        simp only [typeByte, encVal, le32m, List.cons_append, List.nil_append,
          List.append_assoc]
        rw [rVal_t17, le32val_le32m inc hinc, le32val_le32m sec hsec]
      | int64 v =>
        simp only [validVal, Bool.and_eq_true, decide_eq_true_eq] at hv
        obtain ⟨⟨hb, h0⟩, h1⟩ := hv
        simp only [typeByte, encVal, le64, List.cons_append, List.nil_append]
        rw [rVal_t18, le64val_le64 _ (intToU64_lt v), u64ToInt_intToU64 v h0 h1]
      | decimal128 bs =>
        simp only [validVal, Bool.and_eq_true, decide_eq_true_eq] at hv
        obtain ⟨⟨hb, hlen⟩, hbytes⟩ := hv
        simp only [typeByte, encVal]
        have h16 := takeE_append bs rest
        rw [hlen] at h16
        rw [rVal_t19, h16]
        rfl
      | minKey =>
        simp [typeByte, encVal, rVal_t255]
      | maxKey =>
        simp [typeByte, encVal, rVal_t127]
    · intro fs depth b hv hbd hf
      cases fs with
      | nil =>
        rw [encFields, rFields]
      | cons kv fs' =>
        obtain ⟨k, v⟩ := kv
        simp only [validFields, Bool.and_eq_true] at hv
        obtain ⟨⟨hk, hvv⟩, hvf⟩ := hv
        have hlen : (encFields ((k, v) :: fs')).length =
            1 + (cstr k).length + (encVal v).length + (encFields fs').length := by
          simp [encFields]
          omega
        have hck : 1 ≤ (cstr k).length := by simp [cstr]
        rw [show encFields ((k, v) :: fs') =
          typeByte v :: (cstr k ++ (encVal v ++ encFields fs')) by
            simp [encFields, List.append_assoc]]
        rw [rFields, rCstr_cstr k _ hk]
        simp only [Except.bind]
        rw [(ih g (by omega)).1 v depth (encFields fs') b hvv hbd (by omega)]
        simp only [Except.bind]
        rw [(ih g (by omega)).2.1 fs' depth b hvf hbd (by omega)]
        rfl
    · intro xs i depth b hv hbd hf
      cases xs with
      | nil =>
        exact ⟨[], by rw [encElems, rFields], rfl⟩
      | cons v vs =>
        simp only [validElems, Bool.and_eq_true] at hv
        obtain ⟨hvv, hvs⟩ := hv
        have hlen : (encElems i (v :: vs)).length =
            1 + (cstr (idxKey i)).length + (encVal v).length + (encElems (i + 1) vs).length := by
          simp [encElems]
          omega
        have hck : 1 ≤ (cstr (idxKey i)).length := by simp [cstr]
        obtain ⟨gs', hgs', hmap'⟩ :=
          (ih g (by omega)).2.2 vs (i + 1) depth b hvs hbd (by omega)
        refine ⟨(idxKey i, v) :: gs', ?_, by simp [hmap']⟩
        rw [show encElems i (v :: vs) =
          typeByte v :: (cstr (idxKey i) ++ (encVal v ++ encElems (i + 1) vs)) by
            simp [encElems, List.append_assoc]]
        rw [rFields, rCstr_cstr (idxKey i) _ (noNul_idxKey i)]
        simp only [Except.bind]
        rw [(ih g (by omega)).1 v depth (encElems (i + 1) vs) b hvv hbd (by omega)]
        simp only [Except.bind]
        rw [hgs']
        rfl

/-- Round trip of the binary codec on valid Documents: decoding an encoded
Document returns it exactly. -/
theorem decode_encode (d : Document) (h : ValidDoc d = true) : decode (encode d) = .ok d := by
  simp only [ValidDoc, Bool.and_eq_true] at h
  obtain ⟨hdk, hvf⟩ := h
  unfold decode
  have hN : (encode d).length = (encFields d).length + 5 := by simp [encode, le32]
  have hfields :=
    (readerInv ((encode d).length)).2.1 d 999 999 hvf (Nat.le_refl 999) (by omega)
  have hbody := rDoc_body (encFields d) d ((encode d).length) 999 [] hfields
  have hshape : le32 ((encFields d).length + 5) ++ (encFields d ++ ([0] ++ [])) = encode d := by
    simp [encode]
  rw [hshape] at hbody
  rw [show (999 : Nat) + 1 = 1000 from rfl] at hbody
  rw [hbody]
  rfl

/-! ## JSON rendering -/

/-- Two spaces of indentation per nesting level. -/
def pad : Nat → List Char
  | 0 => []
  | n + 1 => cSp :: cSp :: pad n

/-- Characters of a JSON number surface form. -/
def numChars (neg : Bool) (ip fp : List Nat) : List Char :=
  (if neg then [cMinus] else []) ++ ip.map Nat.digitChar ++
    (if fp = [] then [] else cDot :: fp.map Nat.digitChar)

mutual

/-- Modelled from the spec: the pretty renderer with fixed two-space
indentation, producing the same layout as the platform JSON printer with
indent two: multi-entry objects and arrays break onto indented lines, empty
ones render closed. -/
def renderJ : Nat → Json → List Char
  | _, .jstr s => cQ :: escChars s.data ++ [cQ]
  | _, .jnum neg ip fp => numChars neg ip fp
  | _, .jbool true => ['t', 'r', 'u', 'e']
  | _, .jbool false => ['f', 'a', 'l', 's', 'e']
  | _, .jnull => ['n', 'u', 'l', 'l']
  | _, .jarr [] => [cLS, cRS]
  | ind, .jarr (x :: xs) =>
    cLS :: cNL :: (renderEls (ind + 1) (x :: xs) ++ cNL :: pad ind ++ [cRS])
  | _, .jobj [] => [cLB, cRB]
  | ind, .jobj (f :: fs) =>
    cLB :: cNL :: (renderFs (ind + 1) (f :: fs) ++ cNL :: pad ind ++ [cRB])

/-- Rendered members of an object: each on its own indented line, as
`"key": value`, separated by commas. -/
def renderFs : Nat → List (String × Json) → List Char
  | _, [] => []
  | ind, [(k, v)] =>
    pad ind ++ (cQ :: escChars k.data ++ [cQ]) ++ cColon :: cSp :: renderJ ind v
  | ind, (k, v) :: f :: fs =>
    (pad ind ++ (cQ :: escChars k.data ++ [cQ]) ++ cColon :: cSp :: renderJ ind v) ++
      cComma :: cNL :: renderFs ind (f :: fs)

/-- Rendered elements of an array, one per indented line. -/
def renderEls : Nat → List Json → List Char
  | _, [] => []
  | ind, [v] => pad ind ++ renderJ ind v
  | ind, v :: x :: xs =>
    (pad ind ++ renderJ ind v) ++ cComma :: cNL :: renderEls ind (x :: xs)

end

/-! ## JSON parsing -/

/-- JSON whitespace. -/
def isWs (c : Char) : Bool := c = cSp || c = cNL || c.toNat = 9 || c.toNat = 13

/-- Drop leading whitespace. -/
def skipWs : List Char → List Char
  | [] => []
  | c :: rest => if isWs c then skipWs rest else c :: rest

/-- Longest digit run at the front, as digit values. -/
def takeDigits : List Char → List Nat × List Char
  | [] => ([], [])
  | c :: rest =>
    if isDig c then
      let p := takeDigits rest
      (digVal c :: p.1, p.2)
    else ([], c :: rest)

/-- Match a literal character sequence at the front of the input, returning
what follows it. -/
def dropLit : List Char → List Char → Option (List Char)
  | [], l => some l
  | p :: ps, c :: l => if c = p then dropLit ps l else none
  | _ :: _, [] => none

theorem dropLit_append : ∀ (pat r : List Char), dropLit pat (pat ++ r) = some r := by
  intro pat
  induction pat with
  | nil => intro r; rfl
  | cons p ps ih => intro r; simp [dropLit, ih]

/-- Modelled from the spec: a JSON number token after its optional minus —
digits, then an optional fraction introduced by a decimal point with at
least one digit. -/
def pNum (neg : Bool) (input : List Char) : Except ConvError (Json × List Char) :=
  let p := takeDigits input
  if p.1 = [] then .error .invalidJson
  else
    match p.2 with
    | c :: r2 =>
      if c = cDot then
        let q := takeDigits r2
        if q.1 = [] then .error .invalidJson else .ok (.jnum neg p.1 q.1, q.2)
      else .ok (.jnum neg p.1 [], c :: r2)
    | [] => .ok (.jnum neg p.1 [], [])

mutual

/-- Modelled from the spec: recursive-descent parser for the JSON grammar
subset the bridge uses (objects, arrays, strings with the renderer's two
escapes, numbers without exponents, the three keywords).  The first argument
is step fuel, the second the remaining nesting budget enforcing the depth
limit; everything outside the grammar is `InvalidJson`. -/
def pVal : Nat → Nat → List Char → Except ConvError (Json × List Char)
  | 0, _, _ => .error .invalidJson
  | f + 1, depth, input =>
    match skipWs input with
    | [] => .error .invalidJson
    | c :: rest => pDispatch f depth c rest
termination_by structural f _ _ => f

/-- Head dispatch of the parser, fed the first non-blank character. -/
def pDispatch : Nat → Nat → Char → List Char → Except ConvError (Json × List Char)
  | 0, _, _, _ => .error .invalidJson
  | f + 1, depth, c, rest =>
    if c = cLB then
      if depth = 0 then .error .invalidJson
      else
        match skipWs rest with
        | c2 :: r2 =>
          if c2 = cRB then .ok (.jobj [], r2)
          else (pMembers f (depth - 1) (c2 :: r2)).map fun p => (.jobj p.1, p.2)
        | [] => .error .invalidJson
    else if c = cLS then
      if depth = 0 then .error .invalidJson
      else
        match skipWs rest with
        | c2 :: r2 =>
          if c2 = cRS then .ok (.jarr [], r2)
          else (pElems f (depth - 1) (c2 :: r2)).map fun p => (.jarr p.1, p.2)
        | [] => .error .invalidJson
    else if c = cQ then
      (pStrChars rest).map fun p => (.jstr (String.mk p.1), p.2)
    else if c = 't' then
      (dropLit ['r', 'u', 'e'] rest).elim (.error .invalidJson) fun r => .ok (.jbool true, r)
    else if c = 'f' then
      (dropLit ['a', 'l', 's', 'e'] rest).elim (.error .invalidJson) fun r =>
        .ok (.jbool false, r)
    else if c = 'n' then
      (dropLit ['u', 'l', 'l'] rest).elim (.error .invalidJson) fun r => .ok (.jnull, r)
    else if c = cMinus then pNum true rest
    else if isDig c then pNum false (c :: rest)
    else .error .invalidJson
termination_by structural f _ _ _ => f

/-- Member loop of the parser: `"key": value`, then a comma and further
members or the closing curly bracket. -/
def pMembers : Nat → Nat → List Char → Except ConvError (List (String × Json) × List Char)
  | 0, _, _ => .error .invalidJson
  | f + 1, depth, input =>
    match skipWs input with
    | c :: rest =>
      if c = cQ then
        (pStrChars rest).bind fun pk =>
          match skipWs pk.2 with
          | c2 :: r2 =>
            if c2 = cColon then
              (pVal f depth r2).bind fun pv =>
                match skipWs pv.2 with
                | c3 :: r3 =>
                  if c3 = cComma then
                    (pMembers f depth r3).map fun pm =>
                      ((String.mk pk.1, pv.1) :: pm.1, pm.2)
                  else if c3 = cRB then .ok ([(String.mk pk.1, pv.1)], r3)
                  else .error .invalidJson
                | [] => .error .invalidJson
            else .error .invalidJson
          | [] => .error .invalidJson
      else .error .invalidJson
    | [] => .error .invalidJson
termination_by structural f _ _ => f

/-- Element loop of the parser: a value, then a comma and further elements
or the closing square bracket. -/
def pElems : Nat → Nat → List Char → Except ConvError (List Json × List Char)
  | 0, _, _ => .error .invalidJson
  | f + 1, depth, input =>
    (pVal f depth input).bind fun pv =>
      match skipWs pv.2 with
      | c :: rest =>
        if c = cComma then
          (pElems f depth rest).map fun pe => (pv.1 :: pe.1, pe.2)
        else if c = cRS then .ok ([pv.1], rest)
        else .error .invalidJson
      | [] => .error .invalidJson
termination_by structural f _ _ => f

end

/-- Modelled from the spec: parse a JSON text into a Json value; the fuel is
the text length plus two, the nesting limit 1000; trailing non-blank text is
`InvalidJson`. -/
def parseJsonText (s : String) : Except ConvError Json :=
  (pVal (s.data.length + 2) 1000 s.data).bind fun p =>
    if skipWs p.2 = [] then .ok p.1 else .error .invalidJson

/-! ## Parser inversion: support lemmas -/

theorem skipWs_ws (c : Char) (l : List Char) (h : isWs c = true) :
    skipWs (c :: l) = skipWs l := by
  rw [skipWs, if_pos h]

theorem skipWs_nonws (c : Char) (l : List Char) (h : isWs c = false) :
    skipWs (c :: l) = c :: l := by
  rw [skipWs, if_neg (by simp [h])]

theorem skipWs_pad (n : Nat) (l : List Char) : skipWs (pad n ++ l) = skipWs l := by
  induction n with
  | zero => rfl
  | succ m ih =>
    rw [pad, List.cons_append, List.cons_append,
      skipWs_ws _ _ (by decide), skipWs_ws _ _ (by decide), ih]

theorem skipWs_idem (l : List Char) : skipWs (skipWs l) = skipWs l := by
  induction l with
  | nil => rfl
  | cons c r ih =>
    by_cases h : isWs c = true
    · rw [skipWs_ws c r h]
      exact ih
    · have h2 : isWs c = false := by simpa using h
      rw [skipWs_nonws c r h2, skipWs_nonws c r h2]

theorem pVal_cons (f depth : Nat) (input : List Char) (c : Char) (rest : List Char)
    (h : skipWs input = c :: rest) :
    pVal (f + 1) depth input = pDispatch f depth c rest := by
  rw [pVal, h]

theorem pVal_skip (f depth : Nat) (X Y : List Char) (h : skipWs X = skipWs Y) :
    pVal (f + 1) depth X = pVal (f + 1) depth Y := by
  rw [pVal, pVal, h]

theorem pMembers_skip (f depth : Nat) (X Y : List Char) (h : skipWs X = skipWs Y) :
    pMembers (f + 1) depth X = pMembers (f + 1) depth Y := by
  rw [pMembers, pMembers, h]

theorem pVal_skip0 (f depth : Nat) (X Y : List Char) (h : skipWs X = skipWs Y) :
    pVal f depth X = pVal f depth Y := by
  cases f with
  | zero => rw [pVal, pVal]
  | succ g => exact pVal_skip g depth X Y h

theorem pElems_skip (f depth : Nat) (X Y : List Char) (h : skipWs X = skipWs Y) :
    pElems (f + 1) depth X = pElems (f + 1) depth Y := by
  rw [pElems, pElems, pVal_skip0 _ _ _ _ h]


/-! ## Parser dispatch lemmas -/

theorem pDispatch_obj (f depth : Nat) (rest : List Char) :
    pDispatch (f + 1) depth cLB rest =
      (if depth = 0 then .error .invalidJson
       else
        match skipWs rest with
        | c2 :: r2 =>
          if c2 = cRB then .ok (.jobj [], r2)
          else (pMembers f (depth - 1) (c2 :: r2)).map fun p => (.jobj p.1, p.2)
        | [] => .error .invalidJson) := by
  rw [pDispatch, if_pos rfl]

theorem pDispatch_arr (f depth : Nat) (rest : List Char) :
    pDispatch (f + 1) depth cLS rest =
      (if depth = 0 then .error .invalidJson
       else
        match skipWs rest with
        | c2 :: r2 =>
          if c2 = cRS then .ok (.jarr [], r2)
          else (pElems f (depth - 1) (c2 :: r2)).map fun p => (.jarr p.1, p.2)
        | [] => .error .invalidJson) := by
  rw [pDispatch, if_neg (by decide), if_pos rfl]

theorem pDispatch_str (f depth : Nat) (rest : List Char) :
    pDispatch (f + 1) depth cQ rest =
      (pStrChars rest).map fun p => (.jstr (String.mk p.1), p.2) := by
  rw [pDispatch, if_neg (by decide), if_neg (by decide), if_pos rfl]

theorem pDispatch_true (f depth : Nat) (rest : List Char) :
    pDispatch (f + 1) depth 't' rest =
      (dropLit ['r', 'u', 'e'] rest).elim (.error .invalidJson) fun r =>
        .ok (.jbool true, r) := by
  rw [pDispatch, if_neg (by decide), if_neg (by decide), if_neg (by decide), if_pos rfl]

theorem pDispatch_false (f depth : Nat) (rest : List Char) :
    pDispatch (f + 1) depth 'f' rest =
      (dropLit ['a', 'l', 's', 'e'] rest).elim (.error .invalidJson) fun r =>
        .ok (.jbool false, r) := by
  rw [pDispatch, if_neg (by decide), if_neg (by decide), if_neg (by decide),
    if_neg (by decide), if_pos rfl]

theorem pDispatch_null (f depth : Nat) (rest : List Char) :
    pDispatch (f + 1) depth 'n' rest =
      (dropLit ['u', 'l', 'l'] rest).elim (.error .invalidJson) fun r =>
        .ok (.jnull, r) := by
  rw [pDispatch, if_neg (by decide), if_neg (by decide), if_neg (by decide),
    if_neg (by decide), if_neg (by decide), if_pos rfl]

theorem pDispatch_minus (f depth : Nat) (rest : List Char) :
    pDispatch (f + 1) depth cMinus rest = pNum true rest := by
  rw [pDispatch, if_neg (by decide), if_neg (by decide), if_neg (by decide),
    if_neg (by decide), if_neg (by decide), if_neg (by decide), if_pos rfl]

theorem isDig_facts (c : Char) (h : isDig c = true) :
    c ≠ cLB ∧ c ≠ cLS ∧ c ≠ cQ ∧ c ≠ 't' ∧ c ≠ 'f' ∧ c ≠ 'n' ∧ c ≠ cMinus := by
  refine ⟨?_, ?_, ?_, ?_, ?_, ?_, ?_⟩ <;>
    exact fun he => absurd (he ▸ h) (by decide)

theorem pDispatch_digit (f depth : Nat) (c : Char) (rest : List Char) (hd : isDig c = true) :
    pDispatch (f + 1) depth c rest = pNum false (c :: rest) := by
  obtain ⟨h1, h2, h3, h4, h5, h6, h7⟩ := isDig_facts c hd
  rw [pDispatch, if_neg h1, if_neg h2, if_neg h3, if_neg h4, if_neg h5, if_neg h6,
    if_neg h7, if_pos hd]

/-! ## Number token inversion -/

/-- Head of the remaining input is not a digit. -/
def headNotDig : List Char → Bool
  | [] => true
  | c :: _ => !isDig c

/-- Head of the remaining input can legally terminate a number token. -/
def numDelim : List Char → Bool
  | [] => true
  | c :: _ => !isDig c && !(decide (c = cDot))

theorem numDelim_headNotDig (l : List Char) (h : numDelim l = true) :
    headNotDig l = true := by
  cases l with
  | nil => rfl
  | cons c r =>
    simp only [numDelim, Bool.and_eq_true] at h
    simp [headNotDig, h.1]

theorem takeDigits_spec : ∀ (ds : List Nat) (rest : List Char),
    (∀ d ∈ ds, d < 10) → headNotDig rest = true →
    takeDigits (ds.map Nat.digitChar ++ rest) = (ds, rest) := by
  intro ds
  induction ds with
  | nil =>
    intro rest hd hr
    cases rest with
    | nil => rfl
    | cons c r =>
      simp only [headNotDig, Bool.not_eq_true'] at hr
      simp [takeDigits, hr]
  | cons d ds' ih =>
    intro rest hd hr
    have hd0 : d < 10 := hd d (by simp)
    simp only [List.map_cons, List.cons_append, takeDigits, if_pos (isDig_digitChar d hd0),
      List.append_eq]
    rw [ih rest (fun x hx => hd x (by simp [hx])) hr]
    simp [digVal_digitChar d hd0]

theorem pNum_int (neg : Bool) (ip : List Nat) (rest : List Char)
    (hip : ip ≠ []) (hipd : ∀ d ∈ ip, d < 10) (hrest : numDelim rest = true) :
    pNum neg (ip.map Nat.digitChar ++ rest) = .ok (.jnum neg ip [], rest) := by
  unfold pNum
  rw [takeDigits_spec ip rest hipd (numDelim_headNotDig rest hrest)]
  cases rest with
  | nil => simp [hip]
  | cons c r =>
    have hcd : ¬(c = cDot) := by
      simp only [numDelim, Bool.and_eq_true, Bool.not_eq_true'] at hrest
      simpa using hrest.2
    simp [hip, hcd]

theorem pNum_frac (neg : Bool) (ip fp : List Nat) (rest : List Char)
    (hip : ip ≠ []) (hfp : fp ≠ []) (hipd : ∀ d ∈ ip, d < 10) (hfpd : ∀ d ∈ fp, d < 10)
    (hrest : numDelim rest = true) :
    pNum neg (ip.map Nat.digitChar ++ (cDot :: (fp.map Nat.digitChar ++ rest))) =
      .ok (.jnum neg ip fp, rest) := by
  unfold pNum
  have hdot : isDig cDot = false := by decide
  have hnd : headNotDig (cDot :: (fp.map Nat.digitChar ++ rest)) = true := by
    simp [headNotDig, hdot]
  rw [takeDigits_spec ip _ hipd hnd]
  simp only [hip, if_neg]
  simp [hip]
  rw [takeDigits_spec fp rest hfpd (numDelim_headNotDig rest hrest)]
  simp [hfp]

/-! ## Goodness and depth of Json values -/

mutual

/-- Well-formedness of a Json value for rendering: number surface forms have
a nonempty integer part and digits below ten. -/
def goodJ : Json → Bool
  | .jstr _ => true
  | .jnum _ ip fp => !ip.isEmpty && ip.all (· < 10) && fp.all (· < 10)
  | .jbool _ => true
  | .jnull => true
  | .jarr xs => goodElemsJ xs
  | .jobj fs => goodFieldsJ fs

/-- Goodness of object fields. -/
def goodFieldsJ : List (String × Json) → Bool
  | [] => true
  | (_, v) :: fs => goodJ v && goodFieldsJ fs

/-- Goodness of array elements. -/
def goodElemsJ : List Json → Bool
  | [] => true
  | v :: vs => goodJ v && goodElemsJ vs

end

mutual

/-- Nesting depth of a Json value: objects and arrays count one level. -/
def jdepth : Json → Nat
  | .jarr xs => 1 + jdepthE xs
  | .jobj fs => 1 + jdepthF fs
  | _ => 0

/-- Depth of object fields. -/
def jdepthF : List (String × Json) → Nat
  | [] => 0
  | (_, v) :: fs => max (jdepth v) (jdepthF fs)

/-- Depth of array elements. -/
def jdepthE : List Json → Nat
  | [] => 0
  | v :: vs => max (jdepth v) (jdepthE vs)

end

theorem digitChar_render_facts : ∀ d, d < 10 →
    isWs (Nat.digitChar d) = false ∧ Nat.digitChar d ≠ cRS ∧ Nat.digitChar d ≠ cRB := by
  decide

/-- The first character of a rendered good Json value exists, is not blank,
and is not a closing bracket. -/
theorem renderJ_head (ind : Nat) (j : Json) (hg : goodJ j = true) :
    ∃ c t, renderJ ind j = c :: t ∧ isWs c = false ∧ c ≠ cRS ∧ c ≠ cRB := by
  cases j with
  | jstr s => exact ⟨cQ, _, rfl, by decide, by decide, by decide⟩
  | jnum neg ip fp =>
    simp only [goodJ, Bool.and_eq_true, Bool.not_eq_true'] at hg
    cases neg with
    | true =>
      exact ⟨cMinus,
        ip.map Nat.digitChar ++ (if fp = [] then [] else cDot :: fp.map Nat.digitChar),
        by simp [renderJ, numChars], by decide, by decide, by decide⟩
    | false =>
      match ip, hg with
      | [], hg => exact absurd hg.1.1 (by simp)
      | d :: ds, hg =>
        have hd : d < 10 := by
          have hall := hg.1.2
          simp only [List.all_eq_true] at hall
          simpa using hall d (by simp)
        obtain ⟨h1, h2, h3⟩ := digitChar_render_facts d hd
        exact ⟨Nat.digitChar d,
          ds.map Nat.digitChar ++ (if fp = [] then [] else cDot :: fp.map Nat.digitChar),
          by simp [renderJ, numChars], h1, h2, h3⟩
  | jbool b =>
    cases b with
    | true => exact ⟨'t', _, rfl, rfl, by decide, by decide⟩
    | false => exact ⟨'f', _, rfl, rfl, by decide, by decide⟩
  | jnull => exact ⟨'n', _, rfl, rfl, by decide, by decide⟩
  | jarr xs =>
    cases xs with
    | nil => exact ⟨cLS, _, rfl, rfl, by decide, by decide⟩
    | cons x xs' => exact ⟨cLS, _, rfl, rfl, by decide, by decide⟩
  | jobj fs => cases fs with
    | nil => exact ⟨cLB, _, rfl, by decide, by decide, by decide⟩
    | cons f fs' => exact ⟨cLB, _, rfl, by decide, by decide, by decide⟩

theorem pMembers_skip0 (f depth : Nat) (X Y : List Char) (h : skipWs X = skipWs Y) :
    pMembers f depth X = pMembers f depth Y := by
  cases f with
  | zero => rw [pMembers, pMembers]
  | succ g => exact pMembers_skip g depth X Y h

theorem pElems_skip0 (f depth : Nat) (X Y : List Char) (h : skipWs X = skipWs Y) :
    pElems f depth X = pElems f depth Y := by
  cases f with
  | zero => rw [pElems, pElems]
  | succ g => exact pElems_skip g depth X Y h

theorem renderFs_shape (ind : Nat) (k : String) (v : Json) (fs : List (String × Json)) :
    ∃ W, renderFs ind ((k, v) :: fs) = pad ind ++ (cQ :: W) := by
  cases fs with
  | nil =>
    exact ⟨escChars k.data ++ (cQ :: (cColon :: cSp :: renderJ ind v)), by
      simp [renderFs, List.append_assoc]⟩
  | cons f1 fs' =>
    exact ⟨escChars k.data ++
      (cQ :: (cColon :: cSp :: (renderJ ind v ++ (cComma :: cNL :: renderFs ind (f1 :: fs'))))),
      by simp [renderFs, List.append_assoc]⟩

theorem renderEls_shape (ind : Nat) (v : Json) (xs : List Json) :
    ∃ W, renderEls ind (v :: xs) = pad ind ++ (renderJ ind v ++ W) := by
  cases xs with
  | nil => exact ⟨[], by simp [renderEls]⟩
  | cons x xs' =>
    exact ⟨cComma :: cNL :: renderEls ind (x :: xs'), by simp [renderEls, List.append_assoc]⟩

theorem pMembers_key (f depth : Nat) (input : List Char) (r : List Char)
    (h : skipWs input = cQ :: r) :
    pMembers (f + 1) depth input =
      ((pStrChars r).bind fun pk =>
        match skipWs pk.2 with
        | c2 :: r2 =>
          if c2 = cColon then
            (pVal f depth r2).bind fun pv =>
              match skipWs pv.2 with
              | c3 :: r3 =>
                if c3 = cComma then
                  (pMembers f depth r3).map fun pm => ((String.mk pk.1, pv.1) :: pm.1, pm.2)
                else if c3 = cRB then .ok ([(String.mk pk.1, pv.1)], r3)
                else .error .invalidJson
              | [] => .error .invalidJson
          else .error .invalidJson
        | [] => .error .invalidJson) := by
  rw [pMembers, h]
  rfl

/-- Combined inversion of the JSON parser over the renderer, by strong
induction on step fuel: a rendered good value parses back to itself with
the input tail untouched; rendered members and elements parse back through
their closing bracket. -/
theorem parserInv : ∀ f : Nat,
    (∀ j ind rest depth, goodJ j = true → jdepth j ≤ depth →
      (renderJ ind j).length < f → numDelim rest = true →
      pVal f depth (renderJ ind j ++ rest) = .ok (j, rest)) ∧
    (∀ k v fs ind m rest depth, goodJ v = true → goodFieldsJ fs = true →
      jdepthF ((k, v) :: fs) ≤ depth →
      (renderFs ind ((k, v) :: fs)).length < f →
      pMembers f depth (renderFs ind ((k, v) :: fs) ++ (cNL :: (pad m ++ (cRB :: rest)))) =
        .ok ((k, v) :: fs, rest)) ∧
    (∀ v xs ind m rest depth, goodJ v = true → goodElemsJ xs = true →
      jdepthE (v :: xs) ≤ depth →
      (renderEls ind (v :: xs)).length + 1 < f →
      pElems f depth (renderEls ind (v :: xs) ++ (cNL :: (pad m ++ (cRS :: rest)))) =
        .ok (v :: xs, rest)) := by
  intro f
  induction f using Nat.strong_induction_on with
  | _ f ih =>
  match f with
  | 0 =>
    exact ⟨fun j _ _ _ _ _ h => absurd h (by omega),
      fun k v fs _ _ _ _ _ _ _ h => absurd h (by omega),
      fun v xs _ _ _ _ _ _ _ h => absurd h (by omega)⟩
  | g + 1 =>
    refine ⟨?_, ?_, ?_⟩
    · intro j ind rest depth hg hd hf hnd
      obtain ⟨c0, t0, hre, hnws0, hnrs0, hnrb0⟩ := renderJ_head ind j hg
      obtain ⟨g', rfl⟩ : ∃ g', g = g' + 1 :=
        ⟨g - 1, by rw [hre] at hf; simp at hf; omega⟩
      cases j with
      | jstr s =>
        have harg : renderJ ind (.jstr s) ++ rest =
            cQ :: (escChars s.data ++ (cQ :: rest)) := by
          simp [renderJ]
        have hsw : skipWs (renderJ ind (.jstr s) ++ rest) =
            cQ :: (escChars s.data ++ (cQ :: rest)) := by
          rw [harg, skipWs_nonws _ _ (by decide)]
        rw [pVal_cons _ _ _ _ _ hsw, pDispatch_str, pStrChars_escChars]
        rfl
      | jnum neg ip fp =>
        simp only [goodJ, Bool.and_eq_true, Bool.not_eq_true'] at hg
        have hipne : ip ≠ [] := by
          intro he
          rw [he] at hg
          simp at hg
        have hipd : ∀ d ∈ ip, d < 10 := by
          have hall := hg.1.2
          simp only [List.all_eq_true] at hall
          intro d hdm
          simpa using hall d hdm
        have hfpd : ∀ d ∈ fp, d < 10 := by
          have hall := hg.2
          simp only [List.all_eq_true] at hall
          intro d hdm
          simpa using hall d hdm
        have hnum : ∀ tail, pNum neg (ip.map Nat.digitChar ++
            ((if fp = [] then [] else cDot :: fp.map Nat.digitChar) ++ tail)) =
            .ok (.jnum neg ip fp, tail) → True := fun _ _ => trivial
        by_cases hfp : fp = []
        · subst hfp
          cases neg with
          | true =>
            have harg : renderJ ind (.jnum true ip []) ++ rest =
                cMinus :: (ip.map Nat.digitChar ++ rest) := by
              simp [renderJ, numChars]
            have hsw : skipWs (renderJ ind (.jnum true ip []) ++ rest) =
                cMinus :: (ip.map Nat.digitChar ++ rest) := by
              rw [harg, skipWs_nonws _ _ (by decide)]
            rw [pVal_cons _ _ _ _ _ hsw, pDispatch_minus,
              pNum_int true ip rest hipne hipd hnd]
          | false =>
            match ip, hipne, hipd with
            | d :: ds, _, hipd =>
              have hd0 : d < 10 := hipd d (by simp)
              have harg : renderJ ind (.jnum false (d :: ds) []) ++ rest =
                  Nat.digitChar d :: (ds.map Nat.digitChar ++ rest) := by
                simp [renderJ, numChars]
              have hsw : skipWs (renderJ ind (.jnum false (d :: ds) []) ++ rest) =
                  Nat.digitChar d :: (ds.map Nat.digitChar ++ rest) := by
                rw [harg, skipWs_nonws _ _ (digitChar_render_facts d hd0).1]
              rw [pVal_cons _ _ _ _ _ hsw,
                pDispatch_digit _ _ _ _ (isDig_digitChar d hd0)]
              have harg2 : Nat.digitChar d :: (ds.map Nat.digitChar ++ rest) =
                  (d :: ds).map Nat.digitChar ++ rest := by simp
              rw [harg2, pNum_int false (d :: ds) rest (by simp) hipd hnd]
        · cases neg with
          | true =>
            have harg : renderJ ind (.jnum true ip fp) ++ rest =
                cMinus :: (ip.map Nat.digitChar ++ (cDot :: (fp.map Nat.digitChar ++ rest))) := by
              simp [renderJ, numChars, hfp, List.append_assoc]
            have hsw : skipWs (renderJ ind (.jnum true ip fp) ++ rest) =
                cMinus :: (ip.map Nat.digitChar ++ (cDot :: (fp.map Nat.digitChar ++ rest))) := by
              rw [harg, skipWs_nonws _ _ (by decide)]
            rw [pVal_cons _ _ _ _ _ hsw, pDispatch_minus,
              pNum_frac true ip fp rest hipne hfp hipd hfpd hnd]
          | false =>
            match ip, hipne, hipd with
            | d :: ds, _, hipd =>
              have hd0 : d < 10 := hipd d (by simp)
              have harg : renderJ ind (.jnum false (d :: ds) fp) ++ rest =
                  Nat.digitChar d :: (ds.map Nat.digitChar ++
                    (cDot :: (fp.map Nat.digitChar ++ rest))) := by
                simp [renderJ, numChars, hfp, List.append_assoc]
              have hsw : skipWs (renderJ ind (.jnum false (d :: ds) fp) ++ rest) =
                  Nat.digitChar d :: (ds.map Nat.digitChar ++
                    (cDot :: (fp.map Nat.digitChar ++ rest))) := by
                rw [harg, skipWs_nonws _ _ (digitChar_render_facts d hd0).1]
              rw [pVal_cons _ _ _ _ _ hsw,
                pDispatch_digit _ _ _ _ (isDig_digitChar d hd0)]
              have harg2 : Nat.digitChar d :: (ds.map Nat.digitChar ++
                    (cDot :: (fp.map Nat.digitChar ++ rest))) =
                  (d :: ds).map Nat.digitChar ++ (cDot :: (fp.map Nat.digitChar ++ rest)) := by
                simp
              rw [harg2, pNum_frac false (d :: ds) fp rest (by simp) hfp hipd hfpd hnd]
      | jbool b =>
        cases b with
        | true =>
          have harg : renderJ ind (.jbool true) ++ rest =
              't' :: ('r' :: 'u' :: 'e' :: rest) := by simp [renderJ]
          have hsw : skipWs (renderJ ind (.jbool true) ++ rest) =
              't' :: ('r' :: 'u' :: 'e' :: rest) := by
            rw [harg, skipWs_nonws _ _ (by decide)]
          rw [pVal_cons _ _ _ _ _ hsw, pDispatch_true]
          have hdl : dropLit ['r', 'u', 'e'] ('r' :: 'u' :: 'e' :: rest) = some rest := by
            simp [dropLit]
          rw [hdl]
          rfl
        | false =>
          have harg : renderJ ind (.jbool false) ++ rest =
              'f' :: ('a' :: 'l' :: 's' :: 'e' :: rest) := by simp [renderJ]
          have hsw : skipWs (renderJ ind (.jbool false) ++ rest) =
              'f' :: ('a' :: 'l' :: 's' :: 'e' :: rest) := by
            rw [harg, skipWs_nonws _ _ (by decide)]
          rw [pVal_cons _ _ _ _ _ hsw, pDispatch_false]
          have hdl : dropLit ['a', 'l', 's', 'e'] ('a' :: 'l' :: 's' :: 'e' :: rest) =
              some rest := by simp [dropLit]
          rw [hdl]
          rfl
      | jnull =>
        have harg : renderJ ind .jnull ++ rest = 'n' :: ('u' :: 'l' :: 'l' :: rest) := by
          simp [renderJ]
        have hsw : skipWs (renderJ ind .jnull ++ rest) =
            'n' :: ('u' :: 'l' :: 'l' :: rest) := by
          rw [harg, skipWs_nonws _ _ (by decide)]
        rw [pVal_cons _ _ _ _ _ hsw, pDispatch_null]
        have hdl : dropLit ['u', 'l', 'l'] ('u' :: 'l' :: 'l' :: rest) = some rest := by
          simp [dropLit]
        rw [hdl]
        rfl
      | jarr xs =>
        cases xs with
        | nil =>
          have harg : renderJ ind (.jarr []) ++ rest = cLS :: (cRS :: rest) := by
            simp [renderJ]
          have hsw : skipWs (renderJ ind (.jarr []) ++ rest) = cLS :: (cRS :: rest) := by
            rw [harg, skipWs_nonws _ _ (by decide)]
          have hdep : ¬(depth = 0) := by
            simp only [jdepth] at hd
            omega
          rw [pVal_cons _ _ _ _ _ hsw, pDispatch_arr, if_neg hdep,
            skipWs_nonws cRS rest (by decide)]
          simp
        | cons x xs' =>
          simp only [goodJ, goodElemsJ, Bool.and_eq_true] at hg
          obtain ⟨hgx, hgxs⟩ := hg
          simp only [jdepth] at hd
          have hdx : jdepthE (x :: xs') ≤ depth - 1 := by omega
          have hdep : ¬(depth = 0) := by omega
          have hlen : (renderJ ind (.jarr (x :: xs'))).length =
              (renderEls (ind + 1) (x :: xs')).length + (pad ind).length + 4 := by
            simp [renderJ]
            omega
          have harg : renderJ ind (.jarr (x :: xs')) ++ rest =
              cLS :: (cNL :: (renderEls (ind + 1) (x :: xs') ++
                (cNL :: (pad ind ++ (cRS :: rest))))) := by
            simp [renderJ, List.append_assoc]
          have hsw : skipWs (renderJ ind (.jarr (x :: xs')) ++ rest) =
              cLS :: (cNL :: (renderEls (ind + 1) (x :: xs') ++
                (cNL :: (pad ind ++ (cRS :: rest))))) := by
            rw [harg, skipWs_nonws _ _ (by decide)]
          rw [pVal_cons _ _ _ _ _ hsw, pDispatch_arr, if_neg hdep]
          obtain ⟨W, hW⟩ := renderEls_shape (ind + 1) x xs'
          obtain ⟨cx, tx, hrex, hnwsx, hnrsx, hnrbx⟩ := renderJ_head (ind + 1) x hgx
          have hsw2 : skipWs (cNL :: (renderEls (ind + 1) (x :: xs') ++
              (cNL :: (pad ind ++ (cRS :: rest))))) =
              cx :: (tx ++ (W ++ (cNL :: (pad ind ++ (cRS :: rest))))) := by
            rw [skipWs_ws _ _ (by decide), hW]
            rw [List.append_assoc, skipWs_pad, List.append_assoc, hrex,
              List.cons_append, skipWs_nonws _ _ hnwsx]
          rw [hsw2]
          simp only [if_neg hnrsx]
          have helems := (ih g' (by omega)).2.2 x xs' (ind + 1) ind rest (depth - 1)
            hgx hgxs hdx (by omega)
          have hcongr : pElems g' (depth - 1)
              (cx :: (tx ++ (W ++ (cNL :: (pad ind ++ (cRS :: rest)))))) =
              pElems g' (depth - 1)
                (renderEls (ind + 1) (x :: xs') ++ (cNL :: (pad ind ++ (cRS :: rest)))) := by
            apply pElems_skip0
            rw [skipWs_nonws _ _ hnwsx, hW]
            rw [List.append_assoc, skipWs_pad, List.append_assoc, hrex, List.cons_append,
              skipWs_nonws _ _ hnwsx]
          rw [hcongr, helems]
          rfl
      | jobj fs =>
        cases fs with
        | nil =>
          have harg : renderJ ind (.jobj []) ++ rest = cLB :: (cRB :: rest) := by
            simp [renderJ]
          have hsw : skipWs (renderJ ind (.jobj []) ++ rest) = cLB :: (cRB :: rest) := by
            rw [harg, skipWs_nonws _ _ (by decide)]
          have hdep : ¬(depth = 0) := by
            simp only [jdepth] at hd
            omega
          rw [pVal_cons _ _ _ _ _ hsw, pDispatch_obj, if_neg hdep,
            skipWs_nonws cRB rest (by decide)]
          simp
        | cons f0 fs' =>
          obtain ⟨k0, v0⟩ := f0
          simp only [goodJ, goodFieldsJ, Bool.and_eq_true] at hg
          obtain ⟨hgv, hgfs⟩ := hg
          simp only [jdepth] at hd
          have hdx : jdepthF ((k0, v0) :: fs') ≤ depth - 1 := by omega
          have hdep : ¬(depth = 0) := by omega
          have hlen : (renderJ ind (.jobj ((k0, v0) :: fs'))).length =
              (renderFs (ind + 1) ((k0, v0) :: fs')).length + (pad ind).length + 4 := by
            simp [renderJ]
            omega
          have harg : renderJ ind (.jobj ((k0, v0) :: fs')) ++ rest =
              cLB :: (cNL :: (renderFs (ind + 1) ((k0, v0) :: fs') ++
                (cNL :: (pad ind ++ (cRB :: rest))))) := by
            simp [renderJ, List.append_assoc]
          have hsw : skipWs (renderJ ind (.jobj ((k0, v0) :: fs')) ++ rest) =
              cLB :: (cNL :: (renderFs (ind + 1) ((k0, v0) :: fs') ++
                (cNL :: (pad ind ++ (cRB :: rest))))) := by
            rw [harg, skipWs_nonws _ _ (by decide)]
          rw [pVal_cons _ _ _ _ _ hsw, pDispatch_obj, if_neg hdep]
          obtain ⟨W, hW⟩ := renderFs_shape (ind + 1) k0 v0 fs'
          have hsw2 : skipWs (cNL :: (renderFs (ind + 1) ((k0, v0) :: fs') ++
              (cNL :: (pad ind ++ (cRB :: rest))))) =
              cQ :: (W ++ (cNL :: (pad ind ++ (cRB :: rest)))) := by
            rw [skipWs_ws _ _ (by decide), hW]
            rw [List.append_assoc, skipWs_pad, List.cons_append,
              skipWs_nonws _ _ (by decide)]
          rw [hsw2]
          simp only [if_neg (show ¬(cQ = cRB) by decide)]
          have hmembers := (ih g' (by omega)).2.1 k0 v0 fs' (ind + 1) ind rest
            (depth - 1) hgv hgfs hdx (by omega)
          have hcongr : pMembers g' (depth - 1)
              (cQ :: (W ++ (cNL :: (pad ind ++ (cRB :: rest))))) =
              pMembers g' (depth - 1)
                (renderFs (ind + 1) ((k0, v0) :: fs') ++ (cNL :: (pad ind ++ (cRB :: rest)))) := by
            apply pMembers_skip0
            rw [skipWs_nonws _ _ (by decide), hW]
            rw [List.append_assoc, skipWs_pad, List.cons_append,
              skipWs_nonws _ _ (by decide)]
          rw [hcongr, hmembers]
          rfl
    · intro k v fs ind m rest depth hgv hgfs hdfs hf
      have hdv : jdepth v ≤ depth := by
        simp only [jdepthF] at hdfs
        omega
      have hnd0 : numDelim (cNL :: (pad m ++ (cRB :: rest))) = true := by
        simp only [numDelim]
        decide
      cases fs with
      | nil =>
        have hlen : (renderFs ind [(k, v)]).length =
            (pad ind).length + (escChars k.data).length + (renderJ ind v).length + 4 := by
          simp [renderFs]
          omega
        have harg : renderFs ind [(k, v)] ++ (cNL :: (pad m ++ (cRB :: rest))) =
            pad ind ++ (cQ :: (escChars k.data ++ (cQ :: (cColon :: (cSp ::
              (renderJ ind v ++ (cNL :: (pad m ++ (cRB :: rest))))))))) := by
          simp [renderFs, List.append_assoc]
        have hsw : skipWs (renderFs ind [(k, v)] ++ (cNL :: (pad m ++ (cRB :: rest)))) =
            cQ :: (escChars k.data ++ (cQ :: (cColon :: (cSp ::
              (renderJ ind v ++ (cNL :: (pad m ++ (cRB :: rest)))))))) := by
          rw [harg, skipWs_pad, skipWs_nonws _ _ (by decide)]
        rw [pMembers_key g depth _ _ hsw, pStrChars_escChars]
        simp only [Except.bind]
        rw [skipWs_nonws _ _ (by decide)]
        have hval := (ih g (by omega)).1 v ind (cNL :: (pad m ++ (cRB :: rest))) depth
          hgv hdv (by omega) hnd0
        have hv2 : pVal g depth (cSp :: (renderJ ind v ++ (cNL :: (pad m ++ (cRB :: rest))))) =
            .ok (v, cNL :: (pad m ++ (cRB :: rest))) := by
          rw [pVal_skip0 g depth (cSp :: (renderJ ind v ++ (cNL :: (pad m ++ (cRB :: rest)))))
            (renderJ ind v ++ (cNL :: (pad m ++ (cRB :: rest)))) (skipWs_ws _ _ (by decide)),
            hval]
        have hsep : skipWs (cNL :: (pad m ++ (cRB :: rest))) = cRB :: rest := by
          rw [skipWs_ws _ _ (by decide), skipWs_pad, skipWs_nonws _ _ (by decide)]
        simp only [hv2, hsep]
        rfl
      | cons f1 fs' =>
        obtain ⟨k1, v1⟩ := f1
        simp only [goodFieldsJ, Bool.and_eq_true] at hgfs
        obtain ⟨hgv1, hgfs'⟩ := hgfs
        have hdfs' : jdepthF ((k1, v1) :: fs') ≤ depth := by
          simp only [jdepthF] at hdfs ⊢
          omega
        have hlen : (renderFs ind ((k, v) :: (k1, v1) :: fs')).length =
            (pad ind).length + (escChars k.data).length + (renderJ ind v).length +
              (renderFs ind ((k1, v1) :: fs')).length + 6 := by
          simp [renderFs]
          omega
        have harg : renderFs ind ((k, v) :: (k1, v1) :: fs') ++
              (cNL :: (pad m ++ (cRB :: rest))) =
            pad ind ++ (cQ :: (escChars k.data ++ (cQ :: (cColon :: (cSp ::
              (renderJ ind v ++ (cComma :: (cNL :: (renderFs ind ((k1, v1) :: fs') ++
                (cNL :: (pad m ++ (cRB :: rest)))))))))))) := by
          simp [renderFs, List.append_assoc]
        have hsw : skipWs (renderFs ind ((k, v) :: (k1, v1) :: fs') ++
              (cNL :: (pad m ++ (cRB :: rest)))) =
            cQ :: (escChars k.data ++ (cQ :: (cColon :: (cSp ::
              (renderJ ind v ++ (cComma :: (cNL :: (renderFs ind ((k1, v1) :: fs') ++
                (cNL :: (pad m ++ (cRB :: rest))))))))))) := by
          rw [harg, skipWs_pad, skipWs_nonws _ _ (by decide)]
        rw [pMembers_key g depth _ _ hsw, pStrChars_escChars]
        simp only [Except.bind]
        rw [skipWs_nonws _ _ (by decide)]
        have hval := (ih g (by omega)).1 v ind
          (cComma :: (cNL :: (renderFs ind ((k1, v1) :: fs') ++
            (cNL :: (pad m ++ (cRB :: rest)))))) depth hgv hdv (by omega)
          (by simp only [numDelim]; decide)
        have hv2 : pVal g depth (cSp :: (renderJ ind v ++
              (cComma :: (cNL :: (renderFs ind ((k1, v1) :: fs') ++
                (cNL :: (pad m ++ (cRB :: rest)))))))) =
            .ok (v, cComma :: (cNL :: (renderFs ind ((k1, v1) :: fs') ++
              (cNL :: (pad m ++ (cRB :: rest)))))) := by
          rw [pVal_skip0 g depth _
            (renderJ ind v ++ (cComma :: (cNL :: (renderFs ind ((k1, v1) :: fs') ++
              (cNL :: (pad m ++ (cRB :: rest)))))))
            (skipWs_ws _ _ (by decide)), hval]
        have hsep : skipWs (cComma :: (cNL :: (renderFs ind ((k1, v1) :: fs') ++
              (cNL :: (pad m ++ (cRB :: rest)))))) =
            cComma :: (cNL :: (renderFs ind ((k1, v1) :: fs') ++
              (cNL :: (pad m ++ (cRB :: rest))))) := skipWs_nonws _ _ (by decide)
        have hmem := (ih g (by omega)).2.1 k1 v1 fs' ind m rest depth hgv1 hgfs' hdfs'
          (by omega)
        have hmem2 : pMembers g depth (cNL :: (renderFs ind ((k1, v1) :: fs') ++
              (cNL :: (pad m ++ (cRB :: rest))))) = .ok ((k1, v1) :: fs', rest) := by
          rw [pMembers_skip0 g depth _
            (renderFs ind ((k1, v1) :: fs') ++ (cNL :: (pad m ++ (cRB :: rest))))
            (skipWs_ws _ _ (by decide)), hmem]
        simp only [hv2, hsep, if_true]
        rw [hmem2]
        rfl
    · intro v xs ind m rest depth hgv hgxs hdxs hf
      have hdv : jdepth v ≤ depth := by
        simp only [jdepthE] at hdxs
        omega
      cases xs with
      | nil =>
        have hlen : (renderEls ind [v]).length = (pad ind).length + (renderJ ind v).length := by
          simp [renderEls]
        have hskip : skipWs (renderEls ind [v] ++ (cNL :: (pad m ++ (cRS :: rest)))) =
            skipWs (renderJ ind v ++ (cNL :: (pad m ++ (cRS :: rest)))) := by
          rw [show renderEls ind [v] ++ (cNL :: (pad m ++ (cRS :: rest))) =
            pad ind ++ (renderJ ind v ++ (cNL :: (pad m ++ (cRS :: rest)))) by
              simp [renderEls, List.append_assoc]]
          rw [skipWs_pad]
        have hval := (ih g (by omega)).1 v ind (cNL :: (pad m ++ (cRS :: rest))) depth
          hgv hdv (by omega) (by simp only [numDelim]; decide)
        rw [pElems]
        rw [pVal_skip0 g depth _ (renderJ ind v ++ (cNL :: (pad m ++ (cRS :: rest)))) hskip,
          hval]
        simp only [Except.bind]
        have hsep : skipWs (cNL :: (pad m ++ (cRS :: rest))) = cRS :: rest := by
          rw [skipWs_ws _ _ (by decide), skipWs_pad, skipWs_nonws _ _ (by decide)]
        simp only [hsep]
        rfl
      | cons x1 xs' =>
        simp only [goodElemsJ, Bool.and_eq_true] at hgxs
        obtain ⟨hgx1, hgxs'⟩ := hgxs
        have hdxs' : jdepthE (x1 :: xs') ≤ depth := by
          simp only [jdepthE] at hdxs ⊢
          omega
        have hlen : (renderEls ind (v :: x1 :: xs')).length =
            (pad ind).length + (renderJ ind v).length +
              (renderEls ind (x1 :: xs')).length + 2 := by
          simp [renderEls]
          omega
        have hskip : skipWs (renderEls ind (v :: x1 :: xs') ++
              (cNL :: (pad m ++ (cRS :: rest)))) =
            skipWs (renderJ ind v ++ (cComma :: (cNL :: (renderEls ind (x1 :: xs') ++
              (cNL :: (pad m ++ (cRS :: rest))))))) := by
          rw [show renderEls ind (v :: x1 :: xs') ++ (cNL :: (pad m ++ (cRS :: rest))) =
            pad ind ++ (renderJ ind v ++ (cComma :: (cNL :: (renderEls ind (x1 :: xs') ++
              (cNL :: (pad m ++ (cRS :: rest))))))) by
              simp [renderEls, List.append_assoc]]
          rw [skipWs_pad]
        have hval := (ih g (by omega)).1 v ind
          (cComma :: (cNL :: (renderEls ind (x1 :: xs') ++ (cNL :: (pad m ++ (cRS :: rest))))))
          depth hgv hdv (by omega) (by simp only [numDelim]; decide)
        rw [pElems]
        rw [pVal_skip0 g depth _
          (renderJ ind v ++ (cComma :: (cNL :: (renderEls ind (x1 :: xs') ++
            (cNL :: (pad m ++ (cRS :: rest))))))) hskip, hval]
        simp only [Except.bind]
        have hsep : skipWs (cComma :: (cNL :: (renderEls ind (x1 :: xs') ++
              (cNL :: (pad m ++ (cRS :: rest)))))) =
            cComma :: (cNL :: (renderEls ind (x1 :: xs') ++
              (cNL :: (pad m ++ (cRS :: rest))))) := skipWs_nonws _ _ (by decide)
        have helems := (ih g (by omega)).2.2 x1 xs' ind m rest depth hgx1 hgxs' hdxs'
          (by omega)
        have helems2 : pElems g depth (cNL :: (renderEls ind (x1 :: xs') ++
              (cNL :: (pad m ++ (cRS :: rest))))) = .ok (x1 :: xs', rest) := by
          rw [pElems_skip0 g depth _
            (renderEls ind (x1 :: xs') ++ (cNL :: (pad m ++ (cRS :: rest))))
            (skipWs_ws _ _ (by decide)), helems]
        simp only [hsep, if_true]
        rw [helems2]
        rfl

/-! ## Value induction -/

/-- Structural induction principle for Value providing the inductive
hypothesis at every member of the nested lists. -/
def valueInd (motive : Value → Prop)
    (hdouble : ∀ r, motive (.double r))
    (hstr : ∀ s, motive (.str s))
    (hdoc : ∀ fs, (∀ k v, (k, v) ∈ fs → motive v) → motive (.doc fs))
    (harr : ∀ xs, (∀ v ∈ xs, motive v) → motive (.arr xs))
    (hbin : ∀ st bs, motive (.binary st bs))
    (hoid : ∀ bs, motive (.objectId bs))
    (hbool : ∀ b, motive (.boolean b))
    (hdt : ∀ ms, motive (.dateTime ms))
    (hnull : motive .null)
    (hregex : ∀ p o, motive (.regex p o))
    (hjs : ∀ s, motive (.jsCode s))
    (hi32 : ∀ v, motive (.int32 v))
    (hts : ∀ i s, motive (.timestamp i s))
    (hi64 : ∀ v, motive (.int64 v))
    (hdec : ∀ bs, motive (.decimal128 bs))
    (hmin : motive .minKey)
    (hmax : motive .maxKey) : ∀ v, motive v
  | .double r => hdouble r
  | .str s => hstr s
  | .doc fs => hdoc fs (fun k v hm =>
      valueInd motive hdouble hstr hdoc harr hbin hoid hbool hdt hnull hregex hjs hi32
        hts hi64 hdec hmin hmax v)
  | .arr xs => harr xs (fun v hm =>
      valueInd motive hdouble hstr hdoc harr hbin hoid hbool hdt hnull hregex hjs hi32
        hts hi64 hdec hmin hmax v)
  | .binary st bs => hbin st bs
  | .objectId bs => hoid bs
  | .boolean b => hbool b
  | .dateTime ms => hdt ms
  | .null => hnull
  | .regex p o => hregex p o
  | .jsCode s => hjs s
  | .int32 v => hi32 v
  | .timestamp i s => hts i s
  | .int64 v => hi64 v
  | .decimal128 bs => hdec bs
  | .minKey => hmin
  | .maxKey => hmax
termination_by v => sizeOf v
decreasing_by
  · have := List.sizeOf_lt_of_mem hm
    simp at this ⊢
    omega
  · have := List.sizeOf_lt_of_mem hm
    simp at this ⊢
    omega

/-! ## Wrapper recognition lemmas -/

theorem map_digVal_digitChar (ds : List Nat) (h : ∀ d ∈ ds, d < 10) :
    (ds.map Nat.digitChar).map digVal = ds := by
  rw [List.map_map]
  have : ∀ d ∈ ds, (digVal ∘ Nat.digitChar) d = id d := by
    intro d hd
    simp [Function.comp_def, digVal_digitChar d (h d hd)]
  rw [List.map_congr_left this, List.map_id]

theorem all_isDig_digitChar (ds : List Nat) (h : ∀ d ∈ ds, d < 10) :
    (ds.map Nat.digitChar).all isDig = true := by
  simp only [List.all_eq_true]
  intro c hc
  obtain ⟨d, hd, rfl⟩ := List.mem_map.mp hc
  exact isDig_digitChar d (h d hd)

theorem parseIntChars_intChars (v : Int) : parseIntChars (intChars v) = some v := by
  by_cases hv : v < 0
  · have harg : intChars v = cMinus :: (natDigits v.natAbs).map Nat.digitChar := by
      simp [intChars, hv]
    rw [harg, parseIntChars, if_pos rfl]
    have hne : (natDigits v.natAbs).map Nat.digitChar ≠ [] := by
      simp [natDigits_ne_nil]
    rw [if_pos ⟨hne, all_isDig_digitChar _ (fun d hd => natDigits_lt _ d hd)⟩]
    rw [map_digVal_digitChar _ (fun d hd => natDigits_lt _ d hd), digitsVal_natDigits]
    congr 1
    omega
  · have harg : intChars v = (natDigits v.natAbs).map Nat.digitChar := by
      simp [intChars, hv]
    rw [harg]
    match hnd : (natDigits v.natAbs).map Nat.digitChar with
    | [] => exact absurd (by simpa using congrArg List.length hnd) (by simp [natDigits_ne_nil])
    | c0 :: cs =>
      rw [parseIntChars]
      have hc0 : c0 ∈ (natDigits v.natAbs).map Nat.digitChar := by rw [hnd]; simp
      obtain ⟨d0, hd0m, hd0⟩ := List.mem_map.mp hc0
      have hne : ¬(c0 = cMinus) := by
        rw [← hd0]
        exact (isDig_facts _ (isDig_digitChar d0 (natDigits_lt _ d0 hd0m))).2.2.2.2.2.2
      rw [if_neg hne, ← hnd]
      rw [if_pos (all_isDig_digitChar _ (fun d hd => natDigits_lt _ d hd))]
      rw [map_digVal_digitChar _ (fun d hd => natDigits_lt _ d hd), digitsVal_natDigits]
      congr 1
      omega

theorem jnumToInt_abs (ms : Int) :
    jnumToInt (decide (ms < 0)) (natDigits ms.natAbs) = ms := by
  unfold jnumToInt
  rw [digitsVal_natDigits]
  by_cases h : ms < 0
  · rw [if_pos (decide_eq_true h)]
    omega
  · rw [if_neg (by simpa using h)]
    omega

theorem recognize_oid (bs : Bytes) (hlen : bs.length = 12) (hbs : ∀ b ∈ bs, b < 256) :
    recognize [("$oid", .jstr (String.mk (hexEnc bs)))] = some (.objectId bs) := by
  rw [recognize, if_pos rfl]
  have h24 : (String.mk (hexEnc bs)).data.length = 24 := by
    show (hexEnc bs).length = 24
    rw [hexEnc_length, hlen]
  rw [if_pos h24]
  show (hexDec (hexEnc bs)).map Value.objectId = some (.objectId bs)
  rw [hexDec_hexEnc bs hbs]
  rfl

theorem recognize_long (v : Int)
    (h0 : -9223372036854775808 ≤ v) (h1 : v < 9223372036854775808) :
    recognize [("$numberLong", .jstr (intStr v))] = some (.int64 v) := by
  rw [recognize, if_neg (by decide), if_pos rfl]
  show (parseIntChars (intStr v).data).bind _ = _
  have hdata : (intStr v).data = intChars v := rfl
  rw [hdata, parseIntChars_intChars v]
  simp only [Option.bind]
  rw [if_pos ⟨h0, h1⟩]

theorem recognize_decimal (bs : Bytes) (hlen : bs.length = 16) (hbs : ∀ b ∈ bs, b < 256) :
    recognize [("$numberDecimal", .jstr (String.mk (hexEnc bs)))] = some (.decimal128 bs) := by
  rw [recognize, if_neg (by decide), if_neg (by decide), if_pos rfl]
  have h32 : (String.mk (hexEnc bs)).data.length = 32 := by
    show (hexEnc bs).length = 32
    rw [hexEnc_length, hlen]
  rw [if_pos h32]
  show (hexDec (hexEnc bs)).map Value.decimal128 = some (.decimal128 bs)
  rw [hexDec_hexEnc bs hbs]
  rfl

theorem recognize_code (s : String) :
    recognize [("$code", .jstr s)] = some (.jsCode s) := by
  rw [recognize, if_neg (by decide), if_neg (by decide), if_neg (by decide), if_pos rfl]

theorem recognize_date (ms : Int)
    (h0 : -9223372036854775808 ≤ ms) (h1 : ms < 9223372036854775808) :
    recognize [("$date", intToJnum ms)] = some (.dateTime ms) := by
  rw [show intToJnum ms = .jnum (decide (ms < 0)) (natDigits ms.natAbs) [] from rfl]
  rw [recognize, if_pos rfl]
  rw [if_pos ⟨rfl, natDigits_ne_nil _, by
    simp only [List.all_eq_true]
    intro d hd
    simpa using natDigits_lt _ d hd, by rw [jnumToInt_abs]; exact h0, by
    rw [jnumToInt_abs]; exact h1⟩]
  rw [jnumToInt_abs]

theorem recognize_regex (p o : String) :
    recognize [("$regularExpression", .jobj [("pattern", .jstr p), ("options", .jstr o)])] =
      some (.regex p o) := by
  rw [recognize, if_neg (by decide), if_pos rfl]
  rw [if_pos ⟨rfl, rfl⟩]

theorem recognize_binary (st : Nat) (bs : Bytes) (hst : st < 256) (hbs : ∀ b ∈ bs, b < 256) :
    recognize [("$binary", .jobj
      [("base64", .jstr (String.mk (b64encode bs))),
       ("subType", .jstr (String.mk (hexEnc [st])))])] = some (.binary st bs) := by
  rw [recognize, if_pos rfl]
  have h2 : (String.mk (hexEnc [st])).data.length = 2 := by
    show (hexEnc [st]).length = 2
    rw [hexEnc_length]
    rfl
  rw [if_pos ⟨rfl, rfl, h2⟩]
  show (b64decode (b64encode bs)).bind _ = _
  rw [b64decode_b64encode bs hbs]
  simp only [Option.bind]
  show (hexDec (hexEnc [st])).bind _ = _
  rw [hexDec_hexEnc [st] (by simpa using hst)]
  rfl

theorem recognize_timestamp (inc sec : Nat)
    (hinc : inc < 4294967296) (hsec : sec < 4294967296) :
    recognize [("$timestamp", .jobj [("t", natToJnum sec), ("i", natToJnum inc)])] =
      some (.timestamp inc sec) := by
  rw [show natToJnum sec = .jnum false (natDigits sec) [] from rfl,
    show natToJnum inc = .jnum false (natDigits inc) [] from rfl]
  rw [recognize, if_neg (by decide), if_neg (by decide), if_pos rfl]
  rw [if_pos ⟨rfl, rfl, rfl, rfl, rfl, rfl, natDigits_ne_nil _, natDigits_ne_nil _, by
      simp only [List.all_eq_true]
      intro d hd
      simpa using natDigits_lt _ d hd, by
      simp only [List.all_eq_true]
      intro d hd
      simpa using natDigits_lt _ d hd, by
      rw [digitsVal_natDigits]; exact hsec, by
      rw [digitsVal_natDigits]; exact hinc⟩]
  rw [digitsVal_natDigits, digitsVal_natDigits]

theorem recognize_minKey : recognize [("$minKey", natToJnum 1)] = some .minKey := by
  rfl

theorem recognize_maxKey : recognize [("$maxKey", natToJnum 1)] = some .maxKey := by
  rfl

/-! ## Bridge goodness and inversion -/

theorem good_intToJnum (v : Int) : goodJ (intToJnum v) = true := by
  simp only [intToJnum, goodJ, Bool.and_eq_true, Bool.not_eq_true']
  refine ⟨⟨?_, ?_⟩, rfl⟩
  · cases hnd : natDigits v.natAbs with
    | nil => exact absurd hnd (natDigits_ne_nil _)
    | cons a l => rfl
  · simp only [List.all_eq_true]
    intro d hd
    simpa using natDigits_lt _ d hd

theorem good_natToJnum (n : Nat) : goodJ (natToJnum n) = true := by
  simp only [natToJnum, goodJ, Bool.and_eq_true, Bool.not_eq_true']
  refine ⟨⟨?_, ?_⟩, rfl⟩
  · cases hnd : natDigits n with
    | nil => exact absurd hnd (natDigits_ne_nil _)
    | cons a l => rfl
  · simp only [List.all_eq_true]
    intro d hd
    simpa using natDigits_lt _ d hd

theorem toJson_good : ∀ v : Value, ∀ b, validVal b v = true →
    goodJ (valueToJson v) = true ∧ jdepth (valueToJson v) ≤ b := by
  intro v
  induction v using valueInd with
  | hdouble r =>
    intro b hv
    obtain ⟨neg, ip, fp⟩ := r
    simp only [validVal, digsOk, Bool.and_eq_true, Bool.not_eq_true'] at hv
    exact ⟨by
      simp only [valueToJson, goodJ, Bool.and_eq_true, Bool.not_eq_true']
      exact ⟨⟨hv.1.1, hv.1.2⟩, hv.2.2⟩, by
      show (0 : Nat) ≤ b
      exact Nat.zero_le b⟩
  | hstr s => exact fun b _ => ⟨rfl, Nat.zero_le b⟩
  | hdoc fs hmem =>
    intro b hv
    simp only [validVal, Bool.and_eq_true, decide_eq_true_eq] at hv
    obtain ⟨⟨⟨hb, hdk⟩, hrec⟩, hvf⟩ := hv
    have hfields : ∀ (gs : List (String × Value)),
        (∀ k v, (k, v) ∈ gs → ∀ b2, validVal b2 v = true →
          goodJ (valueToJson v) = true ∧ jdepth (valueToJson v) ≤ b2) →
        validFields (b - 1) gs = true →
        goodFieldsJ (vFields gs) = true ∧ jdepthF (vFields gs) ≤ b - 1 := by
      intro gs
      induction gs with
      | nil => exact fun _ _ => ⟨rfl, Nat.zero_le _⟩
      | cons kv gs' ih2 =>
        obtain ⟨k, v⟩ := kv
        intro hm hvf2
        simp only [validFields, Bool.and_eq_true] at hvf2
        obtain ⟨⟨hk, hvv⟩, hvf'⟩ := hvf2
        obtain ⟨hg1, hd1⟩ := hm k v (by simp) (b - 1) hvv
        obtain ⟨hg2, hd2⟩ := ih2 (fun k2 v2 hmm2 => hm k2 v2 (by simp [hmm2])) hvf'
        refine ⟨?_, ?_⟩
        · simp [vFields, goodFieldsJ, hg1, hg2]
        · simp only [vFields, jdepthF]
          omega
    obtain ⟨hg, hd⟩ := hfields fs hmem hvf
    refine ⟨by simpa [valueToJson, goodJ] using hg, ?_⟩
    simp only [valueToJson, jdepth]
    omega
  | harr xs hmem =>
    intro b hv
    simp only [validVal, Bool.and_eq_true, decide_eq_true_eq] at hv
    obtain ⟨hb, hvx⟩ := hv
    have helems : ∀ (ys : List Value),
        (∀ v ∈ ys, ∀ b2, validVal b2 v = true →
          goodJ (valueToJson v) = true ∧ jdepth (valueToJson v) ≤ b2) →
        validElems (b - 1) ys = true →
        goodElemsJ (vElems ys) = true ∧ jdepthE (vElems ys) ≤ b - 1 := by
      intro ys
      induction ys with
      | nil => exact fun _ _ => ⟨rfl, Nat.zero_le _⟩
      | cons v ys' ih2 =>
        intro hm hvx2
        simp only [validElems, Bool.and_eq_true] at hvx2
        obtain ⟨hvv, hvx'⟩ := hvx2
        obtain ⟨hg1, hd1⟩ := hm v (by simp) (b - 1) hvv
        obtain ⟨hg2, hd2⟩ := ih2 (fun v2 hmm2 => hm v2 (by simp [hmm2])) hvx'
        refine ⟨?_, ?_⟩
        · simp [vElems, goodElemsJ, hg1, hg2]
        · simp only [vElems, jdepthE]
          omega
    obtain ⟨hg, hd⟩ := helems xs hmem hvx
    refine ⟨by simpa [valueToJson, goodJ] using hg, ?_⟩
    simp only [valueToJson, jdepth]
    omega
  | hbin st bs =>
    intro b hv
    simp only [validVal, Bool.and_eq_true, decide_eq_true_eq] at hv
    exact ⟨rfl, by
      show (2 : Nat) ≤ b
      exact hv.1.1⟩
  | hoid bs =>
    intro b hv
    simp only [validVal, Bool.and_eq_true, decide_eq_true_eq] at hv
    exact ⟨rfl, by
      show (1 : Nat) ≤ b
      exact hv.1.1⟩
  | hbool bv => exact fun b _ => ⟨rfl, Nat.zero_le b⟩
  | hdt ms =>
    intro b hv
    simp only [validVal, Bool.and_eq_true, decide_eq_true_eq] at hv
    refine ⟨?_, ?_⟩
    · show (goodJ (intToJnum ms) && goodFieldsJ []) = true
      simp [good_intToJnum, goodFieldsJ]
    · show (1 : Nat) + max (jdepth (intToJnum ms)) (jdepthF []) ≤ b
      show (1 : Nat) + max 0 0 ≤ b
      simpa using hv.1.1
  | hnull => exact fun b _ => ⟨rfl, Nat.zero_le b⟩
  | hregex p o =>
    intro b hv
    simp only [validVal, Bool.and_eq_true, decide_eq_true_eq] at hv
    exact ⟨rfl, by
      show (2 : Nat) ≤ b
      exact hv.1.1⟩
  | hjs s =>
    intro b hv
    simp only [validVal, decide_eq_true_eq] at hv
    exact ⟨rfl, by
      show (1 : Nat) ≤ b
      exact hv⟩
  | hi32 v =>
    intro b hv
    exact ⟨good_intToJnum v, by
      show (0 : Nat) ≤ b
      exact Nat.zero_le b⟩
  | hts i s =>
    intro b hv
    simp only [validVal, Bool.and_eq_true, decide_eq_true_eq] at hv
    refine ⟨?_, ?_⟩
    · show ((goodJ (natToJnum s) && (goodJ (natToJnum i) && goodFieldsJ [])) &&
        goodFieldsJ []) = true
      simp [good_natToJnum, goodFieldsJ]
    · show (1 : Nat) + max (1 + max 0 (max 0 0)) 0 ≤ b
      simpa using hv.1.1
  | hi64 v =>
    intro b hv
    simp only [validVal, Bool.and_eq_true, decide_eq_true_eq] at hv
    exact ⟨rfl, by
      show (1 : Nat) ≤ b
      exact hv.1.1⟩
  | hdec bs =>
    intro b hv
    simp only [validVal, Bool.and_eq_true, decide_eq_true_eq] at hv
    exact ⟨rfl, by
      show (1 : Nat) ≤ b
      exact hv.1.1⟩
  | hmin =>
    intro b hv
    simp only [validVal, decide_eq_true_eq] at hv
    exact ⟨rfl, by
      show (1 : Nat) + max 0 0 ≤ b
      simpa using hv⟩
  | hmax =>
    intro b hv
    simp only [validVal, decide_eq_true_eq] at hv
    exact ⟨rfl, by
      show (1 : Nat) + max 0 0 ≤ b
      simpa using hv⟩

theorem jsonToValue_valueToJson : ∀ v : Value, ∀ b, validVal b v = true →
    jsonToValue (valueToJson v) = v := by
  intro v
  induction v using valueInd with
  | hdouble r =>
    intro b hv
    obtain ⟨neg, ip, fp⟩ := r
    cases fp with
    | nil =>
      exfalso
      simp [validVal, digsOk] at hv
    | cons c cs =>
      show jsonToValue (.jnum neg ip (c :: cs)) = .double ⟨neg, ip, c :: cs⟩
      simp only [jsonToValue, numToValue]
      rw [if_neg (by simp)]
  | hstr s => exact fun b _ => rfl
  | hdoc fs hmem =>
    intro b hv
    simp only [validVal, Bool.and_eq_true, decide_eq_true_eq] at hv
    obtain ⟨⟨⟨hb, hdk⟩, hrec⟩, hvf⟩ := hv
    have hrecn : recognize (vFields fs) = none := Option.isNone_iff_eq_none.mp hrec
    show jsonToValue (.jobj (vFields fs)) = .doc fs
    simp only [jsonToValue]
    rw [hrecn]
    show Value.doc (jFields (vFields fs)) = Value.doc fs
    have hfields : ∀ (gs : List (String × Value)),
        (∀ k v, (k, v) ∈ gs → ∀ b2, validVal b2 v = true →
          jsonToValue (valueToJson v) = v) →
        validFields (b - 1) gs = true → jFields (vFields gs) = gs := by
      intro gs
      induction gs with
      | nil => exact fun _ _ => rfl
      | cons kv gs' ih2 =>
        obtain ⟨k, v⟩ := kv
        intro hm hvf2
        simp only [validFields, Bool.and_eq_true] at hvf2
        show (k, jsonToValue (valueToJson v)) :: jFields (vFields gs') = (k, v) :: gs'
        rw [hm k v (by simp) (b - 1) hvf2.1.2,
          ih2 (fun k2 v2 hmm2 => hm k2 v2 (by simp [hmm2])) hvf2.2]
    rw [hfields fs hmem hvf]
  | harr xs hmem =>
    intro b hv
    simp only [validVal, Bool.and_eq_true, decide_eq_true_eq] at hv
    show jsonToValue (.jarr (vElems xs)) = .arr xs
    simp only [jsonToValue]
    have helems : ∀ (ys : List Value),
        (∀ v ∈ ys, ∀ b2, validVal b2 v = true → jsonToValue (valueToJson v) = v) →
        validElems (b - 1) ys = true → jElems (vElems ys) = ys := by
      intro ys
      induction ys with
      | nil => exact fun _ _ => rfl
      | cons v ys' ih2 =>
        intro hm hvx2
        simp only [validElems, Bool.and_eq_true] at hvx2
        show jsonToValue (valueToJson v) :: jElems (vElems ys') = v :: ys'
        rw [hm v (by simp) (b - 1) hvx2.1,
          ih2 (fun v2 hmm2 => hm v2 (by simp [hmm2])) hvx2.2]
    rw [helems xs hmem hv.2]
  | hbin st bs =>
    intro b hv
    simp only [validVal, Bool.and_eq_true, decide_eq_true_eq, List.all_eq_true] at hv
    show jsonToValue (valueToJson (.binary st bs)) = .binary st bs
    simp only [valueToJson, jsonToValue]
    rw [recognize_binary st bs hv.1.2 (fun x hx => by simpa using hv.2 x hx)]
  | hoid bs =>
    intro b hv
    simp only [validVal, Bool.and_eq_true, decide_eq_true_eq, List.all_eq_true] at hv
    show jsonToValue (valueToJson (.objectId bs)) = .objectId bs
    simp only [valueToJson, jsonToValue]
    rw [recognize_oid bs hv.1.2 (fun x hx => by simpa using hv.2 x hx)]
  | hbool bv => exact fun b _ => rfl
  | hdt ms =>
    intro b hv
    simp only [validVal, Bool.and_eq_true, decide_eq_true_eq] at hv
    show jsonToValue (valueToJson (.dateTime ms)) = .dateTime ms
    simp only [valueToJson, jsonToValue]
    rw [recognize_date ms hv.1.2 hv.2]
  | hnull => exact fun b _ => rfl
  | hregex p o =>
    intro b hv
    show jsonToValue (valueToJson (.regex p o)) = .regex p o
    simp only [valueToJson, jsonToValue]
    rw [recognize_regex p o]
  | hjs s =>
    intro b hv
    show jsonToValue (valueToJson (.jsCode s)) = .jsCode s
    simp only [valueToJson, jsonToValue]
    rw [recognize_code s]
  | hi32 v =>
    intro b hv
    simp only [validVal, Bool.and_eq_true, decide_eq_true_eq] at hv
    show jsonToValue (intToJnum v) = .int32 v
    rw [show intToJnum v = Json.jnum (decide (v < 0)) (natDigits v.natAbs) [] from rfl]
    simp only [jsonToValue, numToValue]
    rw [if_true, jnumToInt_abs, if_pos hv]
  | hts i s =>
    intro b hv
    simp only [validVal, Bool.and_eq_true, decide_eq_true_eq] at hv
    show jsonToValue (valueToJson (.timestamp i s)) = .timestamp i s
    simp only [valueToJson, jsonToValue]
    rw [recognize_timestamp i s hv.1.2 hv.2]
  | hi64 v =>
    intro b hv
    simp only [validVal, Bool.and_eq_true, decide_eq_true_eq] at hv
    show jsonToValue (valueToJson (.int64 v)) = .int64 v
    simp only [valueToJson, jsonToValue]
    rw [recognize_long v hv.1.2 hv.2]
  | hdec bs =>
    intro b hv
    simp only [validVal, Bool.and_eq_true, decide_eq_true_eq, List.all_eq_true] at hv
    show jsonToValue (valueToJson (.decimal128 bs)) = .decimal128 bs
    simp only [valueToJson, jsonToValue]
    rw [recognize_decimal bs hv.1.2 (fun x hx => by simpa using hv.2 x hx)]
  | hmin =>
    intro b hv
    show jsonToValue (valueToJson .minKey) = .minKey
    simp only [valueToJson, jsonToValue]
    rw [recognize_minKey]
  | hmax =>
    intro b hv
    show jsonToValue (valueToJson .maxKey) = .maxKey
    simp only [valueToJson, jsonToValue]
    rw [recognize_maxKey]

theorem jFields_vFields (fs : Document) (b : Nat) (h : validFields b fs = true) :
    jFields (vFields fs) = fs := by
  induction fs with
  | nil => rfl
  | cons kv fs' ih =>
    obtain ⟨k, v⟩ := kv
    simp only [validFields, Bool.and_eq_true] at h
    show (k, jsonToValue (valueToJson v)) :: jFields (vFields fs') = (k, v) :: fs'
    rw [jsonToValue_valueToJson v b h.1.2, ih h.2]

theorem vFields_good (fs : Document) (b : Nat) (h : validFields b fs = true) :
    goodFieldsJ (vFields fs) = true ∧ jdepthF (vFields fs) ≤ b := by
  induction fs with
  | nil => exact ⟨rfl, Nat.zero_le _⟩
  | cons kv fs' ih =>
    obtain ⟨k, v⟩ := kv
    simp only [validFields, Bool.and_eq_true] at h
    obtain ⟨⟨hk, hvv⟩, hvf'⟩ := h
    obtain ⟨hg1, hd1⟩ := toJson_good v b hvv
    obtain ⟨hg2, hd2⟩ := ih hvf'
    refine ⟨?_, ?_⟩
    · simp [vFields, goodFieldsJ, hg1, hg2]
    · simp only [vFields, jdepthF]
      omega

theorem parse_render (j : Json) (hg : goodJ j = true) (hd : jdepth j ≤ 1000) :
    parseJsonText (String.mk (renderJ 0 j)) = .ok j := by
  have h := (parserInv ((renderJ 0 j).length + 2)).1 j 0 [] 1000 hg hd (by omega) rfl
  rw [List.append_nil] at h
  show (pVal ((renderJ 0 j).length + 2) 1000 (renderJ 0 j)).bind _ = _
  rw [h]
  simp only [Except.bind]
  rw [if_pos (show skipWs [] = [] from rfl)]

/-! ## The boundary API -/

/-- Modelled from the spec: JSON image of a Document. -/
def docToJson (d : Document) : Json := .jobj (vFields d)

/-- Modelled from the spec: `toJsonText(Document) -> string`, the BSON→JSON
direction of the bridge with fixed two-space pretty-printing. -/
def toJsonText (d : Document) : String := String.mk (renderJ 0 (docToJson d))

/-- Modelled from the spec: rebuild a Document from a parsed JSON value;
the top level of a conversion must be an object. -/
def jsonToDoc : Json → Except ConvError Document
  | .jobj fields => .ok (jFields fields)
  | _ => .error .invalidJson

/-- Modelled from the spec: `validateAndParse(jsonText) -> Document`. -/
def validateAndParse (s : String) : Except ConvError Document :=
  (parseJsonText s).bind jsonToDoc

/-- Modelled from the spec: the boundary operation
`bsonToJson(bytes) -> Result<string, ConversionError>`. -/
def bsonToJson (input : Bytes) : Except ConvError String :=
  (decode input).map toJsonText

/-- Modelled from the spec: the boundary operation
`jsonToBson(text) -> Result<byte sequence, ConversionError>`. -/
def jsonToBson (s : String) : Except ConvError Bytes :=
  (validateAndParse s).map encode

/-- Modelled from the spec: the boundary operation
`validateJson(text) -> Result<(), ConversionError>`. -/
def validateJson (s : String) : Except ConvError Unit :=
  (validateAndParse s).map fun _ => ()

theorem validateAndParse_toJsonText (d : Document) (h : ValidDoc d = true) :
    validateAndParse (toJsonText d) = .ok d := by
  simp only [ValidDoc, Bool.and_eq_true] at h
  obtain ⟨hdk, hvf⟩ := h
  obtain ⟨hg, hdep⟩ := vFields_good d 999 hvf
  have hparse : parseJsonText (toJsonText d) = .ok (docToJson d) := by
    apply parse_render
    · exact hg
    · show 1 + jdepthF (vFields d) ≤ 1000
      omega
  show (parseJsonText (toJsonText d)).bind jsonToDoc = .ok d
  rw [hparse]
  simp only [Except.bind]
  show Except.ok (jFields (vFields d)) = .ok d
  rw [jFields_vFields d 999 hvf]

/-! ## Depth-limit failures -/

/-- Modelled from the spec: a BSON buffer nesting sub-documents n levels
deep under the key "a", each level carrying a correct length prefix and
terminator. -/
def nestB : Nat → Bytes
  | 0 => [5, 0, 0, 0, 0]
  | n + 1 => le32 ((nestB n).length + 8) ++ (3 :: 97 :: 0 :: (nestB n ++ [0]))

theorem nestB_depth : ∀ n f d rest, d ≤ n →
    rDoc f d (nestB n ++ rest) = .error .malformedBson := by
  intro n
  induction n with
  | zero =>
    intro f d rest hd
    have hd0 : d = 0 := Nat.le_zero.mp hd
    subst hd0
    cases f with
    | zero => rw [rDoc]
    | succ g => rw [rDoc]
  | succ m ih =>
    intro f d rest hd
    cases d with
    | zero =>
      cases f with
      | zero => rw [rDoc]
      | succ g => rw [rDoc]
    | succ e =>
      cases f with
      | zero => rw [rDoc]
      | succ g =>
        have hshape : nestB (m + 1) ++ rest =
            le32 ((nestB m).length + 8) ++ ((3 :: 97 :: 0 :: nestB m) ++ (0 :: rest)) := by
          simp [nestB]
        rw [hshape, rDoc, rLen_le32]
        simp only [Except.bind]
        rw [if_neg (by omega)]
        have h5 : (nestB m).length + 8 - 5 = (3 :: 97 :: 0 :: nestB m).length := by
          simp
        rw [h5, takeE_append]
        simp only [liftO, Except.bind]
        have hnul : rNul (0 :: rest) = .ok rest := rfl
        rw [hnul]
        simp only [Except.bind]
        cases g with
        | zero =>
          rw [rFields]
          rfl
        | succ h =>
          rw [rFields]
          have hc : rCstr (97 :: 0 :: nestB m) = .ok (String.mk ['a'], nestB m) := by
            have h2 := rCstr_chars ['a'] (nestB m) (by decide)
            simpa using h2
          rw [hc]
          simp only [Except.bind]
          cases h with
          | zero =>
            rw [rVal]
            rfl
          | succ i =>
            rw [rVal_t3]
            have hrec : rDoc i e (nestB m) = .error .malformedBson := by
              have h3 := ih i e [] (by omega)
              simpa using h3
            rw [hrec]
            rfl

/-- The BSON Reader rejects 1001 levels of nesting. -/
theorem decode_nestB : decode (nestB 1001) = .error .malformedBson := by
  unfold decode
  have h := nestB_depth 1001 ((nestB 1001).length + 1) 1000 [] (by omega)
  rw [List.append_nil] at h
  rw [h]
  rfl

theorem deepArr_depth : ∀ n f d rest, d ≤ n →
    pVal f d (List.replicate (n + 1) cLS ++ rest) = .error .invalidJson := by
  intro n
  induction n with
  | zero =>
    intro f d rest hd
    have hd0 : d = 0 := Nat.le_zero.mp hd
    subst hd0
    cases f with
    | zero => rw [pVal]
    | succ g =>
      rw [pVal]
      have hsw : skipWs (List.replicate 1 cLS ++ rest) = cLS :: rest := by
        rw [show List.replicate 1 cLS ++ rest = cLS :: rest from rfl]
        exact skipWs_nonws cLS rest (by decide)
      rw [hsw]
      show pDispatch g 0 cLS rest = .error .invalidJson
      cases g with
      | zero => rw [pDispatch]
      | succ h =>
        rw [pDispatch_arr]
        rw [if_pos rfl]
  | succ m ih =>
    intro f d rest hd
    cases f with
    | zero => rw [pVal]
    | succ g =>
      rw [pVal]
      have hsw : skipWs (List.replicate (m + 1 + 1) cLS ++ rest) =
          cLS :: (List.replicate (m + 1) cLS ++ rest) := by
        rw [List.replicate_succ, List.cons_append]
        exact skipWs_nonws _ _ (by decide)
      rw [hsw]
      show pDispatch g d cLS (List.replicate (m + 1) cLS ++ rest) = .error .invalidJson
      cases g with
      | zero => rw [pDispatch]
      | succ h =>
        rw [pDispatch_arr]
        cases d with
        | zero => rw [if_pos rfl]
        | succ e =>
          rw [if_neg (by omega)]
          have hsw2 : skipWs (List.replicate (m + 1) cLS ++ rest) =
              cLS :: (List.replicate m cLS ++ rest) := by
            rw [List.replicate_succ, List.cons_append]
            exact skipWs_nonws _ _ (by decide)
          rw [hsw2]
          show (if cLS = cRS then Except.ok (Json.jarr [], List.replicate m cLS ++ rest)
            else (pElems h e (cLS :: (List.replicate m cLS ++ rest))).map
              fun p => (Json.jarr p.1, p.2)) = .error .invalidJson
          rw [if_neg (by decide)]
          cases h with
          | zero =>
            rw [pElems]
            rfl
          | succ i =>
            rw [pElems]
            have hrec : pVal i e (cLS :: (List.replicate m cLS ++ rest)) =
                .error .invalidJson := by
              have h2 := ih i e rest (by omega)
              rw [List.replicate_succ, List.cons_append] at h2
              exact h2
            rw [hrec]
            rfl

/-- The JSON parser rejects 1001 levels of nesting. -/
theorem parse_deepArr :
    parseJsonText (String.mk (List.replicate 1001 cLS ++ List.replicate 1001 cRS)) =
      .error .invalidJson := by
  unfold parseJsonText
  have h := deepArr_depth 1000
    ((String.mk (List.replicate 1001 cLS ++ List.replicate 1001 cRS)).data.length + 2)
    1000 (List.replicate 1001 cRS) (Nat.le_refl 1000)
  rw [show (List.replicate (1000 + 1) cLS : List Char) = List.replicate 1001 cLS from rfl] at h
  rw [show (String.mk (List.replicate 1001 cLS ++ List.replicate 1001 cRS)).data =
    List.replicate 1001 cLS ++ List.replicate 1001 cRS from rfl] at h ⊢
  rw [h]
  rfl

/-! ## The caller: processFile (src/unnamed/part_000) -/

/-- File type recognized by detectFileType (src/unnamed/part_000). -/
inductive FileType where
  | json
  | bson
deriving DecidableEq, Repr

/-- detectFileType: the extension is the last dot-separated component of the
file name (the characters after the last dot, or the whole name when it has
none), lowercased; an unknown extension is none. -/
def detectFileType (name : String) : Option FileType :=
  let ext := ((name.data.reverse.takeWhile fun c => !(decide (c = cDot))).reverse).map
    Char.toLower
  if ext = "json".data then some .json
  else if ext = "bson".data then some .bson
  else none

/-- The conversion result record built by processFile. -/
structure ConversionResult where
  content : String
  originalType : FileType
  convertedType : FileType
  fileName : String
deriving DecidableEq, Repr

/-- The file name with its final extension removed, as the source's
`name.replace` of a final dot followed by one or more characters other than
a dot or a slash: on the reversed characters, a nonempty run free of dots
and slashes preceded by a dot is dropped together with the dot. -/
def removeExtRev (rcs : List Char) : List Char :=
  let run := rcs.takeWhile fun c => !(decide (c = cDot)) && !(decide (c = '/'))
  match run, rcs.drop run.length with
  | [], _ => rcs
  | _ :: _, c :: rest => if c = cDot then rest else rcs
  | _ :: _, [] => rcs

/-- Remove the final extension of a file name. -/
def removeExt (name : String) : String :=
  String.mk (removeExtRev name.data.reverse).reverse

/-- processFile (src/unnamed/part_000): reject a file over the 10MB limit or
with an unrecognized extension; convert a .bson file's bytes to JSON text;
for a .json file decode the bytes to text, validate by converting to BSON,
and keep the text itself as the result content.  The decoded text is
modelled at character granularity (each byte one code point), per the
conventions above.  Errors carry the source's message strings. -/
def processFile (name : String) (bytes : Bytes) : Except String ConversionResult :=
  if bytes.length > 10 * 1024 * 1024 then .error "File size exceeds 10MB limit"
  else
    match detectFileType name with
    | none => .error "Unsupported file type. Please upload a .json or .bson file."
    | some .bson =>
      match bsonToJson bytes with
      | .ok jsonText => .ok ⟨jsonText, .bson, .json, removeExt name⟩
      | .error _ => .error "Invalid BSON format"
    | some .json =>
      let textContent := String.mk (bytes.map Char.ofNat)
      match jsonToBson textContent with
      | .ok _ => .ok ⟨textContent, .json, .bson, removeExt name⟩
      | .error _ => .error "Invalid JSON format"

theorem processFile_json_verbatim (name : String) (bytes : Bytes) (r : ConversionResult)
    (hres : processFile name bytes = .ok r)
    (hty : detectFileType name = some .json) :
    r.content = String.mk (bytes.map Char.ofNat) := by
  unfold processFile at hres
  rw [hty] at hres
  by_cases hsz : bytes.length > 10 * 1024 * 1024
  · rw [if_pos hsz] at hres
    exact absurd hres (by simp)
  · rw [if_neg hsz] at hres
    have hres2 : (match jsonToBson (String.mk (bytes.map Char.ofNat)) with
      | Except.ok _ => Except.ok (⟨String.mk (bytes.map Char.ofNat), FileType.json,
          FileType.bson, removeExt name⟩ : ConversionResult)
      | Except.error _ => Except.error "Invalid JSON format") = Except.ok r := hres
    cases hj : jsonToBson (String.mk (bytes.map Char.ofNat)) with
    | ok bs =>
      rw [hj] at hres2
      injection hres2 with h
      rw [← h]
    | error e =>
      rw [hj] at hres2
      exact absurd hres2 (by simp)

/-! ## Concrete example inputs for the claims -/

/-- The twelve ObjectId bytes 507f1f77bcf86cd799439011. -/
def oid507 : Bytes := [80, 127, 31, 119, 188, 248, 108, 215, 153, 67, 144, 17]

/-- The document of the spec's ObjectId round-trip example. -/
def exDocAda : Document :=
  [("name", .str "Ada"), ("active", .boolean true), ("id", .objectId oid507)]

/-- The spec's example JSON text, with the ObjectId wrapper. -/
def exTextAda : String :=
  "\x7b\"name\":\"Ada\",\"active\":true,\"id\":\x7b\"$oid\":\"507f1f77bcf86cd799439011\"\x7d\x7d"

/-- A document exercising every Value variant. -/
def exDocAll : Document :=
  [("d", .double ⟨true, [1, 2], [5]⟩), ("s", .str "hi"), ("n", .null),
   ("ts", .timestamp 1 2), ("bin", .binary 4 [0, 255]),
   ("arr", .arr [.int32 3, .boolean false]), ("sub", .doc [("k", .minKey)]),
   ("dec", .decimal128 (List.replicate 16 7)), ("re", .regex "ab" "i"),
   ("js", .jsCode "x=1"), ("dt", .dateTime (-5)), ("mx", .maxKey)]

/-- The document holding the maximum signed 64-bit integer. -/
def exDocI64 : Document := [("big", .int64 9223372036854775807)]

/-- A two-key document whose keys are not alphabetically ordered. -/
def exDocBA : Document := [("b", .int32 1), ("a", .int32 2)]

/-- A nested document showing two indentation levels. -/
def exDocNest : Document := [("a", .int32 1), ("b", .doc [("c", .str "x")])]

/-! ## The claims -/

/-- C1: for every valid Document d, converting it to JSON text and parsing
that text back reconstructs a Document structurally equal to d, key order,
types and values preserved. -/
theorem claim_C1 (d : Document) (h : ValidDoc d = true) :
    validateAndParse (toJsonText d) = .ok d :=
  validateAndParse_toJsonText d h

theorem claim_C1_witness :
    ValidDoc exDocAda = true ∧ validateAndParse (toJsonText exDocAda) = .ok exDocAda :=
  ⟨by decide, claim_C1 exDocAda (by decide)⟩

/-- C2: for every valid Document d, decode (encode d) = d structurally, and
re-encoding the decoded Document reproduces the original bytes
byte-for-byte. -/
theorem claim_C2 (d : Document) (h : ValidDoc d = true) :
    decode (encode d) = .ok d ∧ (decode (encode d)).map encode = .ok (encode d) := by
  refine ⟨decode_encode d h, ?_⟩
  rw [decode_encode d h]
  rfl

theorem claim_C2_witness :
    ValidDoc exDocAll = true ∧
    (decode (encode exDocAll) = .ok exDocAll ∧
     (decode (encode exDocAll)).map encode = .ok (encode exDocAll)) :=
  ⟨by decide, claim_C2 exDocAll (by decide)⟩

/-- C3: ObjectId is rendered as the single-key wrapper object naming the
BSON type, the JSON→BSON direction reconstructs the typed value from that
wrapper, and the spec's Ada example passed through jsonToBson then
bsonToJson yields JSON text whose parsed value equals the parsed original,
whitespace aside. -/
theorem claim_C3 :
    (∀ bs : Bytes,
      valueToJson (.objectId bs) = .jobj [("$oid", .jstr (String.mk (hexEnc bs)))]) ∧
    validateAndParse exTextAda = .ok exDocAda ∧
    (jsonToBson exTextAda).bind bsonToJson = .ok (toJsonText exDocAda) ∧
    parseJsonText (toJsonText exDocAda) = .ok (docToJson exDocAda) ∧
    parseJsonText exTextAda = .ok (docToJson exDocAda) :=
  ⟨fun _ => rfl, rfl, rfl, rfl, rfl⟩

/-- C4: the maximum signed 64-bit integer travels the JSON bridge inside
the $numberLong wrapper as a decimal string, and both the JSON and the
binary round trip reproduce it exactly. -/
theorem claim_C4 :
    valueToJson (.int64 9223372036854775807) =
      .jobj [("$numberLong", .jstr (intStr 9223372036854775807))] ∧
    intStr 9223372036854775807 = "9223372036854775807" ∧
    validateAndParse (toJsonText exDocI64) = .ok exDocI64 ∧
    decode (encode exDocI64) = .ok exDocI64 :=
  ⟨rfl, by decide, rfl, rfl⟩

/-- C5: a valid Document's keys are pairwise distinct, and both the binary
round trip and the JSON-bridge round trip reproduce the key list in its
original order. -/
theorem claim_C5 (d : Document) (h : ValidDoc d = true) :
    distinctKeys (d.map Prod.fst) = true ∧
    (decode (encode d)).map (List.map Prod.fst) = .ok (d.map Prod.fst) ∧
    (validateAndParse (toJsonText d)).map (List.map Prod.fst) = .ok (d.map Prod.fst) := by
  refine ⟨?_, ?_, ?_⟩
  · simp only [ValidDoc, Bool.and_eq_true] at h
    exact h.1
  · rw [decode_encode d h]
    rfl
  · rw [validateAndParse_toJsonText d h]
    rfl

theorem claim_C5_witness :
    ValidDoc exDocBA = true ∧
    (distinctKeys (exDocBA.map Prod.fst) = true ∧
     (decode (encode exDocBA)).map (List.map Prod.fst) = .ok (exDocBA.map Prod.fst) ∧
     (validateAndParse (toJsonText exDocBA)).map (List.map Prod.fst) =
       .ok (exDocBA.map Prod.fst)) :=
  ⟨by decide, claim_C5 exDocBA (by decide)⟩

/-- C6: decode answers MalformedBson on the empty buffer, on a length
prefix exceeding the buffer, and on a buffer missing the terminating NUL. -/
theorem claim_C6 :
    decode [] = .error .malformedBson ∧
    decode [9, 0, 0, 0, 0] = .error .malformedBson ∧
    decode [5, 0, 0, 0, 7] = .error .malformedBson :=
  ⟨rfl, rfl, rfl⟩

/-- C7: validateAndParse answers InvalidJson on the value-less member text,
on an unterminated string and on empty input, and succeeds on the
well-formed JSON text of every valid Document. -/
theorem claim_C7 :
    validateAndParse "\x7b\"a\":\x7d" = .error .invalidJson ∧
    validateAndParse "\"unterminated" = .error .invalidJson ∧
    validateAndParse "" = .error .invalidJson ∧
    ∀ d : Document, ValidDoc d = true → validateAndParse (toJsonText d) = .ok d :=
  ⟨rfl, rfl, rfl, validateAndParse_toJsonText⟩

/-- C8: both directions bound their recursion depth — a BSON buffer nesting
1001 sub-documents is MalformedBson and a JSON text nesting 1001 arrays is
InvalidJson. -/
theorem claim_C8 :
    decode (nestB 1001) = .error .malformedBson ∧
    parseJsonText (String.mk (List.replicate 1001 cLS ++ List.replicate 1001 cRS)) =
      .error .invalidJson :=
  ⟨decode_nestB, parse_deepArr⟩

/-- C9: the BSON→JSON text is a deterministic function of the Document, and
it is pretty-printed with fixed two-space indentation per nesting level. -/
theorem claim_C9 :
    (∀ d e : Document, d = e → toJsonText d = toJsonText e) ∧
    toJsonText exDocNest = "\x7b\n  \"a\": 1,\n  \"b\": \x7b\n    \"c\": \"x\"\n  \x7d\n\x7d" :=
  ⟨fun _ _ h => congrArg toJsonText h, by decide⟩

theorem claim_C9_witness :
    toJsonText exDocNest = toJsonText exDocNest :=
  claim_C9.1 exDocNest exDocNest rfl

/-- C10: on the JSON path, processFile keeps the decoded input text
verbatim as the result content — no reformatting or re-serialization. -/
theorem claim_C10 (name : String) (bytes : Bytes) (r : ConversionResult)
    (hres : processFile name bytes = .ok r)
    (hty : detectFileType name = some .json) :
    r.content = String.mk (bytes.map Char.ofNat) :=
  processFile_json_verbatim name bytes r hres hty

theorem claim_C10_witness :
    processFile "data.json" [123, 125] =
      .ok ⟨String.mk ([123, 125].map Char.ofNat), .json, .bson, "data"⟩ ∧
    ConversionResult.content
      ⟨String.mk ([123, 125].map Char.ofNat), .json, .bson, "data"⟩ =
      String.mk (([123, 125] : Bytes).map Char.ofNat) :=
  ⟨rfl, claim_C10 "data.json" [123, 125] _ rfl rfl⟩

end BsonCodec
